import Mathlib

/-!
Shallow embedding of the `testament` repository's entropy-ranked
estimation-of-distribution network.

The repository carries near-duplicate variants of one engine:

* `main.go` — the multi-bank (Q/K/V) variant: `NewStatistics`, `Set.Sample`,
  `NewNet`, `SetWindow`, `CalculateStatistics`, `Fire`.
* `part_000` / `part_001` — the single-bank variant: one `Distribution`
  field, `Fire` carrying the same sampling / statistics code inline
  (`part_000` has a `Batch` indirection with `Batch = 1`, which makes its
  `Fire` coincide with `part_001`'s).

Modelling conventions:

* Go `float32` values are modelled exactly, as rationals extended with a
  `nan` point (`FV`).  The only non-finite value reachable in this program
  is `NaN`, produced by the `0/0` division in the statistics update when
  `window = 0` (every divided accumulator is an empty sum, hence exactly
  `0`); `FV.div` therefore sends division by zero to `nan`.  Comparisons
  against `nan` are false, matching Go (`NaN > 0` is `false`).
* `math.Sqrt` is Go standard library, external to this repository; it is
  threaded through as an explicit parameter `sq : ℚ → ℚ` (in this program
  it is only ever applied to nonnegative finite values).
* The seeded `rand.Rand` is modelled by the deterministic stream of
  standard-normal draws it produces: a function `ℕ → ℚ` plus a cursor.
* `MulT(neurons[j], input).Data[0]` from the external matrix library is, at
  the shapes used here (a 1-row bank times a 1-column input, `Batch = 1`),
  the dot product of the weight row with the input vector, per the spec's
  Ensemble Evaluator contract (`output[u] = dot(weight_bank[u], input)`).
* `SelfEntropy` from the external matrix library is the spec's Fitness
  Oracle: an opaque parameter from output matrices to a list of scores.
* Go's `sort.Slice` is a deterministic (unstable) comparison sort; it is
  modelled by the deterministic stable `List.insertionSort`, which the
  spec's "ties: stable, arbitrary but deterministic" licence allows.
* Go panics (index out of range in the entropy-assignment loop, the slice
  expression `systems[:window]` with `window < 0` or `window > cap`) are
  modelled with `Except`/`Option`.  After 256 appends from capacity 8 the
  `systems` slice has capacity exactly 256 = its length, so
  `systems[:window]` panics exactly when `window < 0` or
  `window > len(systems)`.
* Where the Go code indexes one matrix while ranging over another
  (`statistics[j][k] += systems[i].Neurons[j].Data[k]`), the two always
  have the same `Outputs × Inputs` shape in this program; the model uses
  shape-truncating `zipWith` pointwise operations, which agree on equal
  shapes.
-/

/-- Decidable equality for `Except`, used to compare modelled `Fire` outcomes. -/
instance {ε α : Type} [DecidableEq ε] [DecidableEq α] : DecidableEq (Except ε α) := fun a b =>
  match a, b with
  | .ok x, .ok y =>
    if h : x = y then .isTrue (by rw [h]) else .isFalse (by simp [h])
  | .error x, .error y =>
    if h : x = y then .isTrue (by rw [h]) else .isFalse (by simp [h])
  | .ok _, .error _ => .isFalse (by simp)
  | .error _, .ok _ => .isFalse (by simp)

namespace Testament

/-- Go `float32` values as reached by this program: a rational, or `NaN`.
`±Inf` is unreachable here (the only zero divisor is `float32(window)` with
`window = 0`, and every dividend is then an empty sum, i.e. exactly `0`),
so division of a nonzero value by zero is also sent to `nan`. -/
inductive FV where
  | nan : FV
  | fin : ℚ → FV
deriving DecidableEq, Repr

/-- Float addition; `NaN` absorbs. -/
def FV.add : FV → FV → FV
  | .fin a, .fin b => .fin (a + b)
  | _, _ => .nan

/-- Float subtraction; `NaN` absorbs. -/
def FV.sub : FV → FV → FV
  | .fin a, .fin b => .fin (a - b)
  | _, _ => .nan

/-- Float multiplication; `NaN` absorbs. -/
def FV.mul : FV → FV → FV
  | .fin a, .fin b => .fin (a * b)
  | _, _ => .nan

/-- Float division; division by zero yields `NaN` (see `FV`). -/
def FV.div : FV → FV → FV
  | .fin a, .fin b => if b = 0 then .nan else .fin (a / b)
  | _, _ => .nan

/-- The Go comparison `v > 0`; false on `NaN`, as in Go. -/
def FV.gtZero : FV → Bool
  | .fin a => decide (0 < a)
  | .nan => false

/-- `math.Sqrt` lifted to `FV`: `NaN` propagates, finite values go through
the external square-root function `sq` (only ever applied to nonnegative
arguments in this program). -/
def FV.sqrtF (sq : ℚ → ℚ) : FV → FV
  | .nan => .nan
  | .fin a => .fin (sq a)

/-- `Random` is a random variable (a mean / standard-deviation pair),
from `main.go` and the single-bank variants. -/
structure Random where
  Mean : FV
  StdDev : FV
deriving DecidableEq, Repr

/-- `Set` is a set of statistics (`type Set [][]Random` in `main.go`;
the `Distribution [][]Random` field of the single-bank variants). -/
def Set := List (List Random)

instance : DecidableEq Set := inferInstanceAs (DecidableEq (List (List Random)))

/-- The seeded `rand.Rand`: modelled by the deterministic stream of
`NormFloat64` draws it produces, plus a cursor. -/
structure Rng where
  stream : ℕ → ℚ
  pos : ℕ

/-- One `rng.NormFloat64()` call. -/
def Rng.next (r : Rng) : ℚ × Rng := (r.stream r.pos, { r with pos := r.pos + 1 })

/-- `Samples` is the number of samples per batch (`256 / Batch`, `Batch = 1`). -/
def Samples : ℕ := 256

/-- `NewStatistics` generates a new statistics model: `outputs` rows of
`inputs` entries, each `(Mean, StdDev) = (0, 1)`. -/
def NewStatistics (inputs outputs : ℕ) : Set :=
  List.replicate outputs (List.replicate inputs { Mean := .fin 0, StdDev := .fin 1 })

/-- One weight draw of `Set.Sample`: `v := float32(rng.NormFloat64())*StdDev
+ Mean; if v > 0 { v = 1 } else { v = -1 }`. -/
def sampleWeight (z : ℚ) (stat : Random) : ℚ :=
  if (FV.add (FV.mul (.fin z) stat.StdDev) stat.Mean).gtZero then 1 else -1

/-- The inner loop of `Set.Sample` (`for k := 0; k < inputs; k++`): draw
and quantize one weight per input dimension, threading the rng. -/
def sampleRowGo (acc : List ℚ × Rng) (row : List Random) : List ℚ × Rng :=
  row.foldl
    (fun acc2 stat =>
      let z := acc2.2.next
      (acc2.1 ++ [sampleWeight z.1 stat], z.2))
    acc

/-- The outer loop body of `Set.Sample` (`for j := range neurons`): one
quantized weight row per output unit. -/
def sampleBankGo (acc : List (List ℚ) × Rng) (row : List Random) :
    List (List ℚ) × Rng :=
  let step := sampleRowGo ([], acc.2) row
  (acc.1 ++ [step.1], step.2)

/-- `Set.Sample` samples from the statistics: one quantized weight row per
output unit, consuming one normal draw per `(output, input)` coordinate in
row-major order. -/
def Set.Sample (s : Set) (rng : Rng) : List (List ℚ) × Rng :=
  s.foldl sampleBankGo ([], rng)

/-- Dot product: `MulT(neurons[j], input).Data[0]` at the shapes used here. -/
def dot (xs ys : List ℚ) : ℚ := (List.zipWith (fun a b => a * b) xs ys).sum

/-- `Matrix` from the external matrix library, as far as the Fitness Oracle
interface needs it: column/row counts and flattened data. -/
structure Matrix where
  Cols : ℕ
  Rows : ℕ
  Data : List ℚ
deriving DecidableEq

/-- `Sample` is a sample of a random neural network (`main.go` declares an
extra `Out Matrix` field that no code ever writes or reads; it is
omitted). -/
structure Sample where
  Entropy : ℚ
  Neurons : List (List ℚ)
  Outputs : List ℚ
deriving DecidableEq, Inhabited, Repr

/-- One iteration of the population-drawing loop of `Fire`: draw a weight
bank, project it against `input` (one dot product per output unit), append
the new population member and its output vector (the latter also flattened
into the oracle's matrix data). -/
def ensembleStep (s : Set) (input : List ℚ)
    (acc : List Sample × List ℚ × Rng) : List Sample × List ℚ × Rng :=
  let drawn := Set.Sample s acc.2.2
  let outs := drawn.1.map (fun nrow => dot nrow input)
  (acc.1 ++ [{ Entropy := 0, Neurons := drawn.1, Outputs := outs }],
   acc.2.1 ++ outs, drawn.2)

/-- The population-drawing loop shared by every `Fire` variant
(`for i := 0; i < Samples; i++`). -/
def sampleEnsemble (s : Set) (input : List ℚ) (rng : Rng) :
    List Sample × List ℚ × Rng :=
  (List.range Samples).foldl (fun acc _ => ensembleStep s input acc) ([], [], rng)

/-- The entropy-assignment loop `for i, entropy := range entropies {
systems[i].Entropy = entropy }`: writes score `i` into member `i`; panics
(`none`) when the oracle returned more scores than population members;
members beyond the score count keep their zero entropy. -/
def assignEntropies (systems : List Sample) (es : List ℚ) :
    Option (List Sample) :=
  if systems.length < es.length then none
  else some ((systems.zipWith (fun s e => { s with Entropy := e }) es) ++
    systems.drop es.length)

/-- The comparator of the population sorts: ascending entropy. -/
def entLE (a b : Sample) : Prop := a.Entropy ≤ b.Entropy

instance : DecidableRel entLE := fun a b =>
  inferInstanceAs (Decidable (a.Entropy ≤ b.Entropy))

instance : IsTotal Sample entLE := ⟨fun a b => le_total a.Entropy b.Entropy⟩

instance : IsTrans Sample entLE := ⟨fun _ _ _ h h2 => le_trans h h2⟩

/-- `sort.Slice(systems, func(i, j) { return systems[i].Entropy <
systems[j].Entropy })`: modelled by the deterministic stable insertion
sort on ascending entropy. -/
def sortSystems (l : List Sample) : List Sample := l.insertionSort entLE

/-- Pointwise addition of two `Outputs × Inputs` rational matrices (the
`statistics[j][k].Mean += value` accumulation loops). -/
def matAdd (a b : List (List ℚ)) : List (List ℚ) :=
  List.zipWith (fun r1 r2 => List.zipWith (fun x y => x + y) r1 r2) a b

/-- Three-list pointwise zip. -/
def zipWith3 (f : α → β → γ → δ) : List α → List β → List γ → List δ
  | a :: as, b :: bs, c :: cs => f a b c :: zipWith3 f as bs cs
  | _, _, _ => []

/-- One sample's contribution to the variance accumulators:
`diff := statistics[j][k].Mean - value; statistics[j][k].StdDev += diff*diff`. -/
def varStep (means acc : List (List FV)) (neurons : List (List ℚ)) :
    List (List FV) :=
  zipWith3
    (fun mrow arow vrow =>
      zipWith3
        (fun m a v => FV.add a (FV.mul (FV.sub m (.fin v)) (FV.sub m (.fin v))))
        mrow arow vrow)
    means acc neurons

/-- Statistics-update failure: the Go slice expression `systems[:window]`
panics (`window < 0` or `window > len(systems)`; the slice's capacity
equals its length 256 here). -/
inductive CalcErr where
  | slicePanic : CalcErr
deriving DecidableEq

/-- Phase 1 of the statistics update: the `statistics[j][k].Mean += value`
accumulation over the first `window` members, starting from the zeroed
table. -/
def calcSums (outputs inputs : ℕ) (elite : List Sample) : List (List ℚ) :=
  elite.foldl (fun acc s => matAdd acc s.Neurons)
    (List.replicate outputs (List.replicate inputs (0 : ℚ)))

/-- Phase 2: `statistics[i][j].Mean /= float32(window)`. -/
def calcMeans (window : ℤ) (sums : List (List ℚ)) : List (List FV) :=
  sums.map (fun row => row.map
    (fun x => FV.div (.fin x) (.fin ((window : ℤ) : ℚ))))

/-- Phase 3: the `diff := Mean - value; StdDev += diff*diff` accumulation
over the first `window` members. -/
def calcVars (means : List (List FV)) (outputs inputs : ℕ)
    (elite : List Sample) : List (List FV) :=
  elite.foldl (fun acc s => varStep means acc s.Neurons)
    (List.replicate outputs (List.replicate inputs (FV.fin 0)))

/-- Phase 4: `StdDev /= float32(window); StdDev = sqrt(StdDev)`. -/
def calcStds (sq : ℚ → ℚ) (window : ℤ) (vars : List (List FV)) :
    List (List FV) :=
  vars.map (fun row => row.map
    (fun a => FV.sqrtF sq (FV.div a (.fin ((window : ℤ) : ℚ)))))

/-- Reassemble the mean and standard-deviation tables into one `Set`. -/
def calcZip (means stds : List (List FV)) : Set :=
  List.zipWith
    (fun mrow srow => List.zipWith
      (fun m sd => { Mean := m, StdDev := sd : Random }) mrow srow)
    means stds

/-- `CalculateStatistics` (`main.go`; inlined verbatim in the single-bank
`Fire`s): zero accumulators, sum the first `window` members' weights,
divide by `float32(window)`, then accumulate and divide squared deviations
and take the square root (the four Go loops are the four named phases).
With `window = 0` every division is `0/0`, i.e. `NaN` (`FV.div` by zero). -/
def calculateStatistics (sq : ℚ → ℚ) (window : ℤ) (outputs inputs : ℕ)
    (systems : List Sample) : Except CalcErr Set :=
  if window < 0 ∨ (systems.length : ℤ) < window then .error .slicePanic
  else
    let elite := systems.take window.toNat
    let sums := calcSums outputs inputs elite
    let means := calcMeans window sums
    let vars := calcVars means outputs inputs elite
    let stds := calcStds sq window vars
    .ok (calcZip means stds)

/-- `Fire` failure modes: the entropy-assignment index panic, or the
`systems[:window]` slice panic inside the statistics update. -/
inductive FireErr where
  | indexPanic : FireErr
  | slicePanic : FireErr
deriving DecidableEq

end Testament


namespace Testament.QKV

/-- `Net` from `main.go`: three statistics banks Q, K, V. -/
structure Net where
  window : ℤ
  Inputs : ℕ
  Outputs : ℕ
  Rng : Testament.Rng
  Q : Testament.Set
  K : Testament.Set
  V : Testament.Set

/-- `NewNet` makes a new network (the seeded rng is modelled by the draw
stream it produces). -/
def NewNet (stream : ℕ → ℚ) (window : ℤ) (inputs outputs : ℕ) : Net :=
  { window := window
    Inputs := inputs
    Outputs := outputs
    Rng := { stream := stream, pos := 0 }
    Q := NewStatistics inputs outputs
    K := NewStatistics inputs outputs
    V := NewStatistics inputs outputs }

/-- `SetWindow` sets the window: an unconditional atomic store. -/
def Net.SetWindow (n : Net) (window : ℤ) : Net := { n with window := window }

/-- `CalculateStatistics` method of `main.go`'s `Net`. -/
def Net.CalculateStatistics (sq : ℚ → ℚ) (n : Net) (systems : List Sample) :
    Except CalcErr Testament.Set :=
  calculateStatistics sq n.window n.Outputs n.Inputs systems

/-- The Q-population drawing loop of `Fire` (first loop, fresh rng). -/
def ensQ (n : Net) (input : List ℚ) : List Sample × List ℚ × Rng :=
  sampleEnsemble n.Q input n.Rng

/-- The K-population drawing loop of `Fire` (second loop, continuing the
same rng). -/
def ensK (n : Net) (input : List ℚ) : List Sample × List ℚ × Rng :=
  sampleEnsemble n.K input (ensQ n input).2.2

/-- The V-population drawing loop of `Fire` (third loop). -/
def ensV (n : Net) (input : List ℚ) : List Sample × List ℚ × Rng :=
  sampleEnsemble n.V input (ensK n input).2.2

/-- The single `SelfEntropy(q, k, v)` call of `Fire`: one joint score list
for the three aligned output matrices. -/
def scores
    (oracle : Testament.Matrix → Testament.Matrix → Testament.Matrix → List ℚ)
    (n : Net) (input : List ℚ) : List ℚ :=
  oracle { Cols := n.Outputs, Rows := Samples, Data := (ensQ n input).2.1 }
    { Cols := n.Outputs, Rows := Samples, Data := (ensK n input).2.1 }
    { Cols := n.Outputs, Rows := Samples, Data := (ensV n input).2.1 }

/-- The Q population after the entropy-assignment loop (`[]` only in the
panic case, where `Fire` aborts instead of using it). -/
def assignedQ
    (oracle : Testament.Matrix → Testament.Matrix → Testament.Matrix → List ℚ)
    (n : Net) (input : List ℚ) : List Sample :=
  (assignEntropies (ensQ n input).1 (scores oracle n input)).getD []

/-- The K population after the entropy-assignment loop. -/
def assignedK
    (oracle : Testament.Matrix → Testament.Matrix → Testament.Matrix → List ℚ)
    (n : Net) (input : List ℚ) : List Sample :=
  (assignEntropies (ensK n input).1 (scores oracle n input)).getD []

/-- The V population after the entropy-assignment loop. -/
def assignedV
    (oracle : Testament.Matrix → Testament.Matrix → Testament.Matrix → List ℚ)
    (n : Net) (input : List ℚ) : List Sample :=
  (assignEntropies (ensV n input).1 (scores oracle n input)).getD []

/-- `Fire` from `main.go`: draw the Q, K and V populations from one rng in
that order, score them with a single `SelfEntropy(q, k, v)` call, assign
score `i` to the Q, K and V members at position `i`, sort each population
by entropy, re-estimate each bank from its sorted prefix, and return the
best-ranked V output.  On a panic the rng has still advanced (it is
mutated in place during sampling) but no bank has been replaced. -/
def Net.Fire (sq : ℚ → ℚ)
    (oracle : Testament.Matrix → Testament.Matrix → Testament.Matrix → List ℚ)
    (n : Net) (input : List ℚ) : Except FireErr (List ℚ) × Net :=
  match assignEntropies (ensQ n input).1 (scores oracle n input),
      assignEntropies (ensK n input).1 (scores oracle n input),
      assignEntropies (ensV n input).1 (scores oracle n input) with
  | some aq, some ak, some av =>
    match n.CalculateStatistics sq (sortSystems aq),
        n.CalculateStatistics sq (sortSystems ak),
        n.CalculateStatistics sq (sortSystems av) with
    | .ok newQ, .ok newK, .ok newV =>
      (.ok (sortSystems av).headI.Outputs,
       { n with Rng := (ensV n input).2.2, Q := newQ, K := newK, V := newV })
    | _, _, _ => (.error .slicePanic, { n with Rng := (ensV n input).2.2 })
  | _, _, _ => (.error .indexPanic, { n with Rng := (ensV n input).2.2 })

end Testament.QKV

namespace Testament.SingleBank

/-- `Net` from `part_000` / `part_001`: one `Distribution` bank. -/
structure Net where
  window : ℤ
  Inputs : ℕ
  Outputs : ℕ
  Rng : Testament.Rng
  Distribution : Testament.Set

/-- `NewNet` makes a new network. -/
def NewNet (stream : ℕ → ℚ) (window : ℤ) (inputs outputs : ℕ) : Net :=
  { window := window
    Inputs := inputs
    Outputs := outputs
    Rng := { stream := stream, pos := 0 }
    Distribution := NewStatistics inputs outputs }

/-- `SetWindow` sets the window: an unconditional atomic store. -/
def Net.SetWindow (n : Net) (window : ℤ) : Net := { n with window := window }

/-- The population drawing loop of the single-bank `Fire`. -/
def ens (n : Net) (input : List ℚ) : List Sample × List ℚ × Rng :=
  sampleEnsemble n.Distribution input n.Rng

/-- The `SelfEntropy(output, output, output)` call of the single-bank
`Fire`: the one output matrix passed three times. -/
def scores
    (oracle : Testament.Matrix → Testament.Matrix → Testament.Matrix → List ℚ)
    (n : Net) (input : List ℚ) : List ℚ :=
  oracle { Cols := n.Outputs, Rows := Samples, Data := (ens n input).2.1 }
    { Cols := n.Outputs, Rows := Samples, Data := (ens n input).2.1 }
    { Cols := n.Outputs, Rows := Samples, Data := (ens n input).2.1 }

/-- The population after the entropy-assignment loop. -/
def assigned
    (oracle : Testament.Matrix → Testament.Matrix → Testament.Matrix → List ℚ)
    (n : Net) (input : List ℚ) : List Sample :=
  (assignEntropies (ens n input).1 (scores oracle n input)).getD []

/-- `Fire` from `part_000` / `part_001` (with `Batch = 1` they coincide):
draw the population, score it with `SelfEntropy(output, output, output)`,
assign entropies — and then `sort.Slice(entropies, func(i, j) {
systems[i].Entropy < systems[j].Entropy })` permutes the dead `entropies`
slice through a comparator that reads the untouched `systems`, so the
population KEEPS ITS DRAW ORDER; the statistics update and the returned
`systems[0].Outputs` therefore use draw order, not fitness order. -/
def Net.Fire (sq : ℚ → ℚ)
    (oracle : Testament.Matrix → Testament.Matrix → Testament.Matrix → List ℚ)
    (n : Net) (input : List ℚ) : Except FireErr (List ℚ) × Net :=
  match assignEntropies (ens n input).1 (scores oracle n input) with
  | some systems =>
    match calculateStatistics sq n.window n.Outputs n.Inputs systems with
    | .ok next =>
      (.ok systems.headI.Outputs,
       { n with Rng := (ens n input).2.2, Distribution := next })
    | .error _ => (.error .slicePanic, { n with Rng := (ens n input).2.2 })
  | none => (.error .indexPanic, { n with Rng := (ens n input).2.2 })

end Testament.SingleBank

namespace Testament

/-! Specification-side helper definitions.  These are not translations of
source functions; they name the quantities the specification's sentences
talk about (coordinate accessors, the elite-average formulas of §4.4, the
sorted index ranking of §4.3/§8.6), so that the theorems below can relate
the translated code to them. -/

/-- Coordinate access into a weight bank: `weight_bank[u][d]`. -/
def wgt (m : Sample) (u d : ℕ) : ℚ := (m.Neurons.getD u []).getD d 0

/-- Coordinate access into a statistics table. -/
def getRC (S : Set) (u d : ℕ) : Random :=
  (S.getD u []).getD d { Mean := .nan, StdDev := .nan }

/-- A nested list has `O` rows of `I` entries each. -/
def Shape (O I : ℕ) (s : List (List α)) : Prop :=
  s.length = O ∧ ∀ row ∈ s, row.length = I

instance (O I : ℕ) (s : List (List α)) : Decidable (Shape O I s) :=
  decidable_of_iff (s.length = O ∧ ∀ row ∈ s, row.length = I) Iff.rfl

/-- Every population member's weight bank has `O` rows of `I` entries. -/
def NShape (O I : ℕ) (systems : List Sample) : Prop :=
  ∀ m ∈ systems, Shape O I m.Neurons

/-- Total number of normal draws one `Set.Sample` call consumes. -/
def sizeSum (s : Set) : ℕ := (s.map List.length).sum

/-- Unfolded form of the inner loop of `Set.Sample`: the weights of one
output unit's row, drawn left to right from stream position `p`. -/
def sampleRowSpec (g : ℕ → ℚ) (p : ℕ) : List Random → List ℚ
  | [] => []
  | stat :: row => sampleWeight (g p) stat :: sampleRowSpec g (p + 1) row

/-- Unfolded form of `Set.Sample`: rows drawn top to bottom, each row
consuming its own length in draws. -/
def sampleBankSpec (g : ℕ → ℚ) (p : ℕ) : List (List Random) → List (List ℚ)
  | [] => []
  | row :: rest => sampleRowSpec g p row :: sampleBankSpec g (p + row.length) rest

/-- Unfolded form of the population loop of `Fire` (`sampleEnsemble`):
`n` population members drawn in sequence. -/
def ensembleAux (s : Set) (input : List ℚ) (rng : Rng) :
    ℕ → List Sample × List ℚ × Rng
  | 0 => ([], [], rng)
  | n + 1 => ensembleStep s input (ensembleAux s input rng n)

/-- The mean the specification prescribes: the arithmetic mean, over the
elite members, of the realized weight at `(u, d)`. -/
def eliteMean (elite : List Sample) (w : ℤ) (u d : ℕ) : ℚ :=
  (elite.map (fun m => wgt m u d)).sum / ((w : ℤ) : ℚ)

/-- The biased (population) variance the specification prescribes over
exactly the elite subset at `(u, d)`. -/
def eliteVar (elite : List Sample) (w : ℤ) (u d : ℕ) : ℚ :=
  (elite.map (fun m => (eliteMean elite w u d - wgt m u d) ^ 2)).sum /
    ((w : ℤ) : ℚ)

/-- The fitness-ascending comparison on population positions, keyed by a
score list. -/
def scoreLE (es : List ℚ) (i j : ℕ) : Prop := es.getD i 0 ≤ es.getD j 0

instance (es : List ℚ) : DecidableRel (scoreLE es) := fun i j =>
  inferInstanceAs (Decidable (es.getD i 0 ≤ es.getD j 0))

instance (es : List ℚ) : IsTotal ℕ (scoreLE es) :=
  ⟨fun i j => le_total (es.getD i 0) (es.getD j 0)⟩

instance (es : List ℚ) : IsTrans ℕ (scoreLE es) :=
  ⟨fun _ _ _ h h2 => le_trans h h2⟩

/-- The specification's joint ranking: population positions sorted by
fitness ascending. -/
def rankedIndices (es : List ℚ) : List ℕ :=
  (List.range es.length).insertionSort (scoreLE es)

/-- The specification's elite index set: the first `w` positions of the
fitness-ascending ranking. -/
def eliteIndices (es : List ℚ) (w : ℕ) : List ℕ := (rankedIndices es).take w

/-! Concrete instances used by the closed evaluation theorems: stub draw
streams and stub Fitness Oracles. -/

/-- A draw stream that is constantly zero. -/
def zeroStream : ℕ → ℚ := fun _ => 0

/-- A draw stream that is constantly one (every weight quantizes to `+1`). -/
def onesStream : ℕ → ℚ := fun _ => 1

/-- A draw stream whose first 248 draws are `1` and whose remaining
population draws are `-1`: with one weight per sample, the first 248 drawn
samples carry weight `+1` and the last 8 carry weight `-1`. -/
def stream248 : ℕ → ℚ := fun n => if n < 248 then 1 else -1

/-- A draw stream whose first 128 draws are `1`, the rest `-1`. -/
def stream128 : ℕ → ℚ := fun n => if n < 128 then 1 else -1

/-- A stub oracle returning `k` zero scores regardless of its inputs. -/
def constOracle (k : ℕ) : Matrix → Matrix → Matrix → List ℚ :=
  fun _ _ _ => List.replicate k (0 : ℚ)

/-- A stub oracle whose score at index `i` is `i` for `i < 248` and
`i - 256` (negative) for the last 8 indices: the fitness-lowest window of 8
is exactly the last 8 drawn samples. -/
def oracle248 : Matrix → Matrix → Matrix → List ℚ :=
  fun _ _ _ => (List.range 256).map
    (fun i => if 248 ≤ i then (i : ℚ) - 256 else (i : ℚ))

/-- A stub oracle whose score at index `i` is `i`, except that the last
sample (index 255) gets score `-1`: the single fitness-best sample is the
last drawn one. -/
def oracleLast : Matrix → Matrix → Matrix → List ℚ :=
  fun _ _ _ => (List.range 256).map
    (fun i => if i = 255 then (-1 : ℚ) else (i : ℚ))

/-! Basic lemmas about the float model. -/

@[simp]
theorem FV.add_fin (a b : ℚ) : FV.add (.fin a) (.fin b) = .fin (a + b) := rfl

@[simp]
theorem FV.sub_fin (a b : ℚ) : FV.sub (.fin a) (.fin b) = .fin (a - b) := rfl

@[simp]
theorem FV.mul_fin (a b : ℚ) : FV.mul (.fin a) (.fin b) = .fin (a * b) := rfl

theorem FV.div_fin {b : ℚ} (a : ℚ) (hb : b ≠ 0) :
    FV.div (.fin a) (.fin b) = .fin (a / b) := by
  simp [FV.div, hb]

@[simp]
theorem FV.div_fin_zero (a : ℚ) : FV.div (.fin a) (.fin 0) = .nan := by
  simp [FV.div]

@[simp]
theorem FV.sqrtF_fin (sq : ℚ → ℚ) (a : ℚ) : FV.sqrtF sq (.fin a) = .fin (sq a) :=
  rfl

@[simp]
theorem FV.sqrtF_nan (sq : ℚ → ℚ) : FV.sqrtF sq .nan = .nan := rfl

@[simp]
theorem FV.gtZero_fin (a : ℚ) : (FV.fin a).gtZero = decide (0 < a) := rfl

/-! The sampler: `Set.Sample` computes `sampleBankSpec` and advances the
rng by one draw per coordinate. -/

theorem sampleRowGo_eq (g : ℕ → ℚ) (row : List Random) :
    ∀ (acc : List ℚ) (p : ℕ),
      sampleRowGo (acc, { stream := g, pos := p }) row =
        (acc ++ sampleRowSpec g p row, { stream := g, pos := p + row.length }) := by
  induction row with
  | nil => intro acc p; simp [sampleRowGo, sampleRowSpec]
  | cons stat row ih =>
    intro acc p
    simp only [sampleRowGo, List.foldl_cons] at ih ⊢
    rw [show (Rng.next { stream := g, pos := p }) =
      (g p, { stream := g, pos := p + 1 }) from rfl]
    simp only [ih, sampleRowSpec, List.length_cons, List.append_assoc,
      List.singleton_append]
    have h : p + 1 + row.length = p + (row.length + 1) := by omega
    rw [h]

theorem foldl_sampleBankGo (g : ℕ → ℚ) (s : Set) :
    ∀ (acc : List (List ℚ)) (p : ℕ),
      s.foldl sampleBankGo (acc, { stream := g, pos := p }) =
        (acc ++ sampleBankSpec g p s, { stream := g, pos := p + sizeSum s }) := by
  induction s with
  | nil => intro acc p; simp [sampleBankSpec, sizeSum]
  | cons row rest ih =>
    intro acc p
    simp only [List.foldl_cons]
    rw [show sampleBankGo (acc, { stream := g, pos := p }) row =
        (acc ++ [sampleRowSpec g p row], { stream := g, pos := p + row.length })
      from by simp [sampleBankGo, sampleRowGo_eq]]
    rw [ih]
    simp only [sampleBankSpec, sizeSum, List.map_cons, List.sum_cons,
      List.append_assoc, List.singleton_append]
    have h : p + row.length + (rest.map List.length).sum =
        p + (row.length + (rest.map List.length).sum) := by omega
    rw [h]

theorem Set.Sample_eq (s : Set) (g : ℕ → ℚ) (p : ℕ) :
    Set.Sample s { stream := g, pos := p } =
      (sampleBankSpec g p s, { stream := g, pos := p + sizeSum s }) := by
  rw [Set.Sample, foldl_sampleBankGo]
  rfl

theorem length_sampleRowSpec (g : ℕ → ℚ) (p : ℕ) (row : List Random) :
    (sampleRowSpec g p row).length = row.length := by
  induction row generalizing p with
  | nil => rfl
  | cons stat row ih => simp [sampleRowSpec, ih]

theorem length_sampleBankSpec (g : ℕ → ℚ) (p : ℕ) (s : List (List Random)) :
    (sampleBankSpec g p s).length = s.length := by
  induction s generalizing p with
  | nil => rfl
  | cons row rest ih => simp [sampleBankSpec, ih]

theorem rows_sampleBankSpec {I : ℕ} (g : ℕ → ℚ) :
    ∀ (s : List (List Random)) (p : ℕ), (∀ row ∈ s, row.length = I) →
      ∀ r ∈ sampleBankSpec g p s, r.length = I := by
  intro s
  induction s with
  | nil => intro p _ r hr; simp [sampleBankSpec] at hr
  | cons row rest ih =>
    intro p hrows r hr
    simp only [sampleBankSpec, List.mem_cons] at hr
    rcases hr with h | h
    · subst h
      rw [length_sampleRowSpec]
      exact hrows row (List.mem_cons_self _ _)
    · exact ih _ (fun r2 hr2 => hrows r2 (List.mem_cons_of_mem _ hr2)) r h

theorem shape_sampleBankSpec {O I : ℕ} {s : Set} (g : ℕ → ℚ) (p : ℕ)
    (hs : Shape O I s) : Shape O I (sampleBankSpec g p s) :=
  ⟨by rw [length_sampleBankSpec, hs.1], rows_sampleBankSpec g s p hs.2⟩

/-- Every sampled weight is `+1` or `-1`. -/
theorem sampleWeight_mem (z : ℚ) (stat : Random) :
    sampleWeight z stat = 1 ∨ sampleWeight z stat = -1 := by
  unfold sampleWeight
  split <;> simp

theorem mem_sampleRowSpec {g : ℕ → ℚ} {p : ℕ} {row : List Random} {x : ℚ}
    (hx : x ∈ sampleRowSpec g p row) : x = 1 ∨ x = -1 := by
  induction row generalizing p with
  | nil => simp [sampleRowSpec] at hx
  | cons stat rest ih =>
    simp only [sampleRowSpec, List.mem_cons] at hx
    rcases hx with h | h
    · subst h; exact sampleWeight_mem _ _
    · exact ih h

theorem getElem_sampleRowSpec (g : ℕ → ℚ) :
    ∀ (row : List Random) (p k : ℕ), k < row.length →
      (sampleRowSpec g p row).getD k 0 =
        sampleWeight (g (p + k)) (row.getD k { Mean := .nan, StdDev := .nan }) := by
  intro row
  induction row with
  | nil => intro p k hk; simp at hk
  | cons stat rest ih =>
    intro p k hk
    match k with
    | 0 => simp [sampleRowSpec]
    | k + 1 =>
      simp only [sampleRowSpec, List.getD_cons_succ]
      rw [ih (p + 1) k (by simpa using hk)]
      congr 2
      omega

/-- The `(j, k)` entry of a sampled bank with uniform row length `I` uses
draw number `j * I + k` of the stream. -/
theorem getElem_sampleBankSpec {I : ℕ} (g : ℕ → ℚ) :
    ∀ (s : List (List Random)) (p j k : ℕ),
      (∀ row ∈ s, row.length = I) → j < s.length → k < I →
      ((sampleBankSpec g p s).getD j []).getD k 0 =
        sampleWeight (g (p + j * I + k))
          ((s.getD j []).getD k { Mean := .nan, StdDev := .nan }) := by
  intro s
  induction s with
  | nil => intro p j k _ hj _; simp at hj
  | cons row rest ih =>
    intro p j k hrows hj hk
    match j with
    | 0 =>
      simp only [sampleBankSpec, List.getD_cons_zero, Nat.zero_mul, Nat.add_zero]
      exact getElem_sampleRowSpec g row p k
        (by rw [hrows row (List.mem_cons_self _ _)]; exact hk)
    | j + 1 =>
      simp only [sampleBankSpec, List.getD_cons_succ]
      rw [ih (p + row.length) j k
        (fun r hr => hrows r (List.mem_cons_of_mem _ hr)) (by simpa using hj) hk]
      congr 2
      rw [hrows row (List.mem_cons_self _ _)]
      ring

/-! The population loop. -/

theorem sampleEnsemble_eq (s : Set) (input : List ℚ) (rng : Rng) :
    sampleEnsemble s input rng = ensembleAux s input rng Samples := by
  suffices h : ∀ n, (List.range n).foldl (fun acc _ => ensembleStep s input acc)
      ([], [], rng) = ensembleAux s input rng n from h Samples
  intro n
  induction n with
  | zero => rfl
  | succ n ih =>
    rw [List.range_succ, List.foldl_append, ih]
    rfl

theorem ensembleAux_pop_length (s : Set) (input : List ℚ) (rng : Rng) (n : ℕ) :
    (ensembleAux s input rng n).1.length = n := by
  induction n with
  | zero => rfl
  | succ n ih => simp [ensembleAux, ensembleStep, ih]

theorem ensembleAux_rng (s : Set) (input : List ℚ) (g : ℕ → ℚ) (p n : ℕ) :
    (ensembleAux s input { stream := g, pos := p } n).2.2 =
      { stream := g, pos := p + n * sizeSum s } := by
  induction n with
  | zero => simp [ensembleAux]
  | succ n ih =>
    simp only [ensembleAux, ensembleStep, ih, Set.Sample_eq]
    have h : p + n * sizeSum s + sizeSum s = p + (n + 1) * sizeSum s := by ring
    rw [h]

theorem ensembleAux_mem (s : Set) (input : List ℚ) (g : ℕ → ℚ) (p n : ℕ) :
    ∀ m ∈ (ensembleAux s input { stream := g, pos := p } n).1,
      m.Entropy = 0 ∧ ∃ q, m.Neurons = sampleBankSpec g q s ∧
        m.Outputs = (sampleBankSpec g q s).map (fun nrow => dot nrow input) := by
  induction n with
  | zero => simp [ensembleAux]
  | succ n ih =>
    intro m hm
    simp only [ensembleAux, ensembleStep, List.mem_append, List.mem_singleton]
      at hm
    rcases hm with h | h
    · exact ih m h
    · subst h
      refine ⟨rfl, (p + n * sizeSum s), ?_, ?_⟩ <;>
        simp [ensembleAux_rng, Set.Sample_eq]

/-! The entropy-assignment loop. -/

theorem assignEntropies_some {ss : List Sample} {es : List ℚ}
    (h : es.length ≤ ss.length) :
    assignEntropies ss es =
      some ((ss.zipWith (fun s e => { s with Entropy := e }) es) ++
        ss.drop es.length) := by
  simp [assignEntropies, Nat.not_lt.mpr h]

theorem assignEntropies_none {ss : List Sample} {es : List ℚ}
    (h : ss.length < es.length) : assignEntropies ss es = none := by
  simp [assignEntropies, h]

theorem assignEntropies_length {ss out : List Sample} {es : List ℚ}
    (h : assignEntropies ss es = some out) : out.length = ss.length := by
  by_cases hle : es.length ≤ ss.length
  · rw [assignEntropies_some hle] at h
    cases h
    simp
    omega
  · rw [assignEntropies_none (by omega)] at h
    cases h

theorem mem_zipWith_entropy :
    ∀ (ss : List Sample) (es : List ℚ),
      ∀ m ∈ ss.zipWith (fun s e => { s with Entropy := e }) es,
        ∃ m0 ∈ ss, m.Neurons = m0.Neurons ∧ m.Outputs = m0.Outputs := by
  intro ss
  induction ss with
  | nil => intro es m hm; simp at hm
  | cons s rest ih =>
    intro es m hm
    cases es with
    | nil => simp at hm
    | cons e es =>
      simp only [List.zipWith_cons_cons, List.mem_cons] at hm
      rcases hm with h | h
      · subst h; exact ⟨s, List.mem_cons_self _ _, rfl, rfl⟩
      · obtain ⟨m0, hm0, h1, h2⟩ := ih es m h
        exact ⟨m0, List.mem_cons_of_mem _ hm0, h1, h2⟩

theorem assignEntropies_mem {ss out : List Sample} {es : List ℚ}
    (h : assignEntropies ss es = some out) :
    ∀ m ∈ out, ∃ m0 ∈ ss, m.Neurons = m0.Neurons ∧ m.Outputs = m0.Outputs := by
  by_cases hle : es.length ≤ ss.length
  · rw [assignEntropies_some hle] at h
    cases h
    intro m hm
    rcases List.mem_append.mp hm with h2 | h2
    · exact mem_zipWith_entropy ss es m h2
    · exact ⟨m, List.mem_of_mem_drop h2, rfl, rfl⟩
  · rw [assignEntropies_none (by omega)] at h
    cases h

theorem map_entropy_zipWith :
    ∀ (ss : List Sample) (es : List ℚ), es.length = ss.length →
      (ss.zipWith (fun s e => { s with Entropy := e }) es).map Sample.Entropy =
        es := by
  intro ss
  induction ss with
  | nil => intro es h; cases es with
    | nil => rfl
    | cons e es => simp at h
  | cons s rest ih =>
    intro es h
    cases es with
    | nil => simp at h
    | cons e es =>
      simp only [List.zipWith_cons_cons, List.map_cons]
      rw [ih es (by simpa using h)]

theorem assignEntropies_map_entropy {ss out : List Sample} {es : List ℚ}
    (hlen : es.length = ss.length) (h : assignEntropies ss es = some out) :
    out.map Sample.Entropy = es := by
  rw [assignEntropies_some (le_of_eq hlen)] at h
  cases h
  rw [List.drop_eq_nil_of_le (le_of_eq hlen.symm), List.append_nil]
  exact map_entropy_zipWith ss es hlen

/-! The population sort. -/

theorem sortSystems_perm (l : List Sample) : List.Perm (sortSystems l) l :=
  List.perm_insertionSort entLE l

theorem sortSystems_sorted (l : List Sample) :
    List.Sorted entLE (sortSystems l) :=
  List.sorted_insertionSort entLE l

theorem sortSystems_length (l : List Sample) :
    (sortSystems l).length = l.length :=
  (sortSystems_perm l).length_eq

theorem mem_sortSystems {l : List Sample} {m : Sample} :
    m ∈ sortSystems l ↔ m ∈ l :=
  (sortSystems_perm l).mem_iff

/-! Pointwise access lemmas for the nested-list operations. -/

theorem getD_map (f : α → β) (d : α) (db : β) :
    ∀ (l : List α) (i : ℕ), i < l.length → (l.map f).getD i db = f (l.getD i d) := by
  intro l
  induction l with
  | nil => intro i hi; simp at hi
  | cons x xs ih =>
    intro i hi
    match i with
    | 0 => rfl
    | i + 1 => exact ih i (by simpa using hi)

theorem getD_zipWith (f : α → β → γ) (da : α) (db : β) (dc : γ) :
    ∀ (a : List α) (b : List β) (i : ℕ), i < a.length → i < b.length →
      (List.zipWith f a b).getD i dc = f (a.getD i da) (b.getD i db) := by
  intro a
  induction a with
  | nil => intro b i hi _; simp at hi
  | cons x xs ih =>
    intro b i hia hib
    cases b with
    | nil => simp at hib
    | cons y ys =>
      match i with
      | 0 => rfl
      | i + 1 => exact ih ys i (by simpa using hia) (by simpa using hib)

theorem length_zipWith3 (f : α → β → γ → δ) :
    ∀ (a : List α) (b : List β) (c : List γ),
      (zipWith3 f a b c).length = min a.length (min b.length c.length) := by
  intro a
  induction a with
  | nil => intro b c; simp [zipWith3]
  | cons x xs ih =>
    intro b c
    cases b with
    | nil => simp [zipWith3]
    | cons y ys =>
      cases c with
      | nil => simp [zipWith3]
      | cons z zs => simp [zipWith3, ih]; omega

theorem getD_zipWith3 (f : α → β → γ → δ) (da : α) (db : β) (dc : γ) (dd : δ) :
    ∀ (a : List α) (b : List β) (c : List γ) (i : ℕ),
      i < a.length → i < b.length → i < c.length →
      (zipWith3 f a b c).getD i dd =
        f (a.getD i da) (b.getD i db) (c.getD i dc) := by
  intro a
  induction a with
  | nil => intro b c i hi _ _; simp at hi
  | cons x xs ih =>
    intro b c i hia hib hic
    cases b with
    | nil => simp at hib
    | cons y ys =>
      cases c with
      | nil => simp at hic
      | cons z zs =>
        match i with
        | 0 => rfl
        | i + 1 =>
          exact ih ys zs i (by simpa using hia) (by simpa using hib)
            (by simpa using hic)

theorem Shape.row_length {O I : ℕ} {X : List (List α)} (h : Shape O I X)
    {u : ℕ} (hu : u < O) (d : List α) : (X.getD u d).length = I := by
  have hlen : u < X.length := by rw [h.1]; exact hu
  rw [List.getD_eq_getElem X d hlen]
  exact h.2 _ (List.getElem_mem _)

theorem matAdd_shape {O I : ℕ} {a b : List (List ℚ)} (ha : Shape O I a)
    (hb : Shape O I b) : Shape O I (matAdd a b) := by
  refine ⟨by simp [matAdd, ha.1, hb.1], ?_⟩
  intro row hrow
  rw [List.mem_iff_getElem] at hrow
  obtain ⟨i, hi, hrow⟩ := hrow
  have hia : i < a.length := by
    simp only [matAdd, List.length_zipWith] at hi; omega
  have hib : i < b.length := by
    simp only [matAdd, List.length_zipWith] at hi; omega
  have hg : (matAdd a b)[i] =
      List.zipWith (fun x y => x + y) a[i] b[i] :=
    List.getElem_zipWith
  rw [← hrow, hg, List.length_zipWith]
  have h1 : a[i].length = I := ha.2 _ (List.getElem_mem _)
  have h2 : b[i].length = I := hb.2 _ (List.getElem_mem _)
  omega

theorem matAdd_getD {O I : ℕ} {a b : List (List ℚ)} (ha : Shape O I a)
    (hb : Shape O I b) {u d : ℕ} (hu : u < O) (hd : d < I) :
    ((matAdd a b).getD u []).getD d 0 =
      (a.getD u []).getD d 0 + (b.getD u []).getD d 0 := by
  simp only [matAdd]
  rw [getD_zipWith _ [] [] [] a b u (by rw [ha.1]; exact hu)
    (by rw [hb.1]; exact hu)]
  exact getD_zipWith _ 0 0 0 _ _ d
    (by rw [ha.row_length hu]; exact hd) (by rw [hb.row_length hu]; exact hd)

theorem zipWith3_shape {O I : ℕ} {f : α → β → γ → δ} {a : List (List α)}
    {b : List (List β)} {c : List (List γ)} (ha : Shape O I a)
    (hb : Shape O I b) (hc : Shape O I c) :
    Shape O I (zipWith3 (fun ra rb rc => zipWith3 f ra rb rc) a b c) := by
  constructor
  · rw [length_zipWith3, ha.1, hb.1, hc.1]; omega
  · intro row hrow
    rw [List.mem_iff_getElem] at hrow
    obtain ⟨i, hi, hrow⟩ := hrow
    have hiO : i < O := by
      rw [length_zipWith3, ha.1, hb.1, hc.1] at hi; omega
    have hga : i < a.length := by rw [ha.1]; exact hiO
    have hgb : i < b.length := by rw [hb.1]; exact hiO
    have hgc : i < c.length := by rw [hc.1]; exact hiO
    have hrow2 : row = zipWith3 f (a.getD i []) (b.getD i []) (c.getD i []) := by
      rw [← hrow, ← List.getD_eq_getElem _ [] hi]
      exact getD_zipWith3 _ [] [] [] [] a b c i hga hgb hgc
    rw [hrow2, length_zipWith3, ha.row_length hiO, hb.row_length hiO,
      hc.row_length hiO]
    omega

theorem varStep_shape {O I : ℕ} {means acc : List (List FV)}
    {neurons : List (List ℚ)} (hm : Shape O I means) (ha : Shape O I acc)
    (hn : Shape O I neurons) : Shape O I (varStep means acc neurons) :=
  zipWith3_shape hm ha hn

theorem varStep_getD {O I : ℕ} {means acc : List (List FV)}
    {neurons : List (List ℚ)} (hm : Shape O I means) (ha : Shape O I acc)
    (hn : Shape O I neurons) {u d : ℕ} (hu : u < O) (hd : d < I) :
    ((varStep means acc neurons).getD u []).getD d .nan =
      FV.add ((acc.getD u []).getD d .nan)
        (FV.mul
          (FV.sub ((means.getD u []).getD d .nan)
            (.fin ((neurons.getD u []).getD d 0)))
          (FV.sub ((means.getD u []).getD d .nan)
            (.fin ((neurons.getD u []).getD d 0)))) := by
  rw [varStep, getD_zipWith3 _ [] [] [] [] means acc neurons u
    (by rw [hm.1]; exact hu) (by rw [ha.1]; exact hu) (by rw [hn.1]; exact hu)]
  exact getD_zipWith3 _ FV.nan FV.nan (0 : ℚ) FV.nan
    (means.getD u []) (acc.getD u []) (neurons.getD u []) d
    (by rw [hm.row_length hu]; exact hd) (by rw [ha.row_length hu]; exact hd)
    (by rw [hn.row_length hu]; exact hd)

/-! The two accumulation loops of the statistics update. -/

theorem foldl_matAdd_shape {O I : ℕ} :
    ∀ (elite : List Sample) (acc : List (List ℚ)), Shape O I acc →
      NShape O I elite →
      Shape O I (elite.foldl (fun acc s => matAdd acc s.Neurons) acc) := by
  intro elite
  induction elite with
  | nil => intro acc ha _; exact ha
  | cons m rest ih =>
    intro acc ha hn
    rw [List.foldl_cons]
    exact ih _ (matAdd_shape ha (hn m (List.mem_cons_self _ _)))
      (fun m2 hm2 => hn m2 (List.mem_cons_of_mem _ hm2))

theorem foldl_matAdd_getD {O I : ℕ} {u d : ℕ} (hu : u < O) (hd : d < I) :
    ∀ (elite : List Sample) (acc : List (List ℚ)), Shape O I acc →
      NShape O I elite →
      (((elite.foldl (fun acc s => matAdd acc s.Neurons) acc)).getD u []).getD d 0
        = (acc.getD u []).getD d 0 + (elite.map (fun m => wgt m u d)).sum := by
  intro elite
  induction elite with
  | nil => intro acc _ _; simp
  | cons m rest ih =>
    intro acc ha hn
    rw [List.foldl_cons,
      ih _ (matAdd_shape ha (hn m (List.mem_cons_self _ _)))
        (fun m2 hm2 => hn m2 (List.mem_cons_of_mem _ hm2)),
      matAdd_getD ha (hn m (List.mem_cons_self _ _)) hu hd]
    simp only [List.map_cons, List.sum_cons, wgt]
    ring

theorem foldl_varStep_shape {O I : ℕ} {means : List (List FV)}
    (hm : Shape O I means) :
    ∀ (elite : List Sample) (acc : List (List FV)), Shape O I acc →
      NShape O I elite →
      Shape O I (elite.foldl (fun acc s => varStep means acc s.Neurons) acc) := by
  intro elite
  induction elite with
  | nil => intro acc ha _; exact ha
  | cons m rest ih =>
    intro acc ha hn
    rw [List.foldl_cons]
    exact ih _ (varStep_shape hm ha (hn m (List.mem_cons_self _ _)))
      (fun m2 hm2 => hn m2 (List.mem_cons_of_mem _ hm2))

theorem foldl_varStep_getD {O I : ℕ} {means : List (List FV)}
    (hm : Shape O I means) {u d : ℕ} (hu : u < O) (hd : d < I) {mv : ℚ}
    (hmv : (means.getD u []).getD d .nan = .fin mv) :
    ∀ (elite : List Sample) (acc : List (List FV)), Shape O I acc →
      NShape O I elite → ∀ a0 : ℚ, (acc.getD u []).getD d .nan = .fin a0 →
      ((elite.foldl (fun acc s => varStep means acc s.Neurons) acc).getD
          u []).getD d .nan =
        .fin (a0 + (elite.map (fun m => (mv - wgt m u d) ^ 2)).sum) := by
  intro elite
  induction elite with
  | nil => intro acc _ _ a0 h0; simpa using h0
  | cons m rest ih =>
    intro acc ha hn a0 h0
    rw [List.foldl_cons]
    have hstep : ((varStep means acc m.Neurons).getD u []).getD d .nan =
        .fin (a0 + (mv - wgt m u d) ^ 2) := by
      rw [varStep_getD hm ha (hn m (List.mem_cons_self _ _)) hu hd, h0, hmv]
      simp only [FV.sub_fin, FV.mul_fin, FV.add_fin, wgt]
      congr 1
      ring
    rw [ih _ (varStep_shape hm ha (hn m (List.mem_cons_self _ _)))
      (fun m2 hm2 => hn m2 (List.mem_cons_of_mem _ hm2)) _ hstep]
    simp only [List.map_cons, List.sum_cons]
    congr 1
    ring

/-! Characterization of the statistics update: on a population of the
right shape and a window inside `[1, len]`, `calculateStatistics` succeeds
and computes, at every coordinate, exactly the spec's elite average and
the square root of the spec's biased elite variance. -/

theorem getD_replicate {x : α} {n i : ℕ} (d : α) (h : i < n) :
    (List.replicate n x).getD i d = x := by
  rw [List.getD_eq_getElem _ d (by simpa using h)]
  simp

theorem replicate_shape {n m : ℕ} (x : α) :
    Shape n m (List.replicate n (List.replicate m x)) := by
  refine ⟨by simp, ?_⟩
  intro row hrow
  rw [List.eq_of_mem_replicate hrow]
  simp

theorem map_map_shape {O I : ℕ} {X : List (List α)} (f : α → β)
    (h : Shape O I X) : Shape O I (X.map (fun row => row.map f)) := by
  refine ⟨by simp [h.1], ?_⟩
  intro row hrow
  simp only [List.mem_map] at hrow
  obtain ⟨row0, hr0, rfl⟩ := hrow
  simp [h.2 row0 hr0]

theorem zipWith_zipWith_shape {O I : ℕ} {a : List (List α)}
    {b : List (List β)} (f : α → β → γ) (ha : Shape O I a)
    (hb : Shape O I b) :
    Shape O I (List.zipWith (fun ra rb => List.zipWith f ra rb) a b) := by
  refine ⟨by simp [ha.1, hb.1], ?_⟩
  intro row hrow
  rw [List.mem_iff_getElem] at hrow
  obtain ⟨i, hi, hrow⟩ := hrow
  have hia : i < a.length := by simp only [List.length_zipWith] at hi; omega
  have hib : i < b.length := by simp only [List.length_zipWith] at hi; omega
  have hg : (List.zipWith (fun ra rb => List.zipWith f ra rb) a b)[i] =
      List.zipWith f a[i] b[i] := List.getElem_zipWith
  rw [← hrow, hg, List.length_zipWith]
  have h1 : a[i].length = I := ha.2 _ (List.getElem_mem _)
  have h2 : b[i].length = I := hb.2 _ (List.getElem_mem _)
  omega

theorem calcSums_shape {O I : ℕ} {elite : List Sample} (hn : NShape O I elite) :
    Shape O I (calcSums O I elite) :=
  foldl_matAdd_shape elite _ (replicate_shape 0) hn

theorem calcSums_getD {O I : ℕ} {elite : List Sample} (hn : NShape O I elite)
    {u d : ℕ} (hu : u < O) (hd : d < I) :
    ((calcSums O I elite).getD u []).getD d 0 =
      (elite.map (fun m => wgt m u d)).sum := by
  rw [calcSums, foldl_matAdd_getD hu hd _ _ (replicate_shape 0) hn,
    getD_replicate [] hu, getD_replicate 0 hd]
  ring

theorem calcMeans_shape {O I : ℕ} {w : ℤ} {sums : List (List ℚ)}
    (h : Shape O I sums) : Shape O I (calcMeans w sums) :=
  map_map_shape _ h

theorem calcMeans_getD {O I : ℕ} {w : ℤ} {sums : List (List ℚ)}
    (h : Shape O I sums) {u d : ℕ} (hu : u < O) (hd : d < I) :
    ((calcMeans w sums).getD u []).getD d .nan =
      FV.div (.fin ((sums.getD u []).getD d 0)) (.fin ((w : ℤ) : ℚ)) := by
  rw [calcMeans, getD_map _ [] [] _ u (by rw [h.1]; exact hu),
    getD_map _ 0 FV.nan _ d (by rw [h.row_length hu]; exact hd)]

theorem calcVars_shape {O I : ℕ} {means : List (List FV)} {elite : List Sample}
    (hm : Shape O I means) (hn : NShape O I elite) :
    Shape O I (calcVars means O I elite) :=
  foldl_varStep_shape hm elite _ (replicate_shape (FV.fin 0)) hn

theorem calcVars_getD {O I : ℕ} {means : List (List FV)} {elite : List Sample}
    (hm : Shape O I means) (hn : NShape O I elite) {u d : ℕ} (hu : u < O)
    (hd : d < I) {mv : ℚ} (hmv : (means.getD u []).getD d .nan = .fin mv) :
    ((calcVars means O I elite).getD u []).getD d .nan =
      .fin ((elite.map (fun m => (mv - wgt m u d) ^ 2)).sum) := by
  rw [calcVars, foldl_varStep_getD hm hu hd hmv elite _
    (replicate_shape (FV.fin 0)) hn 0
    (by rw [getD_replicate [] hu, getD_replicate FV.nan hd]),
    zero_add]

theorem calcStds_shape {O I : ℕ} {sq : ℚ → ℚ} {w : ℤ}
    {vars : List (List FV)} (h : Shape O I vars) :
    Shape O I (calcStds sq w vars) :=
  map_map_shape _ h

theorem calcStds_getD {O I : ℕ} {sq : ℚ → ℚ} {w : ℤ} {vars : List (List FV)}
    (h : Shape O I vars) {u d : ℕ} (hu : u < O) (hd : d < I) :
    ((calcStds sq w vars).getD u []).getD d .nan =
      FV.sqrtF sq (FV.div ((vars.getD u []).getD d .nan)
        (.fin ((w : ℤ) : ℚ))) := by
  rw [calcStds, getD_map _ [] [] _ u (by rw [h.1]; exact hu),
    getD_map _ FV.nan FV.nan _ d (by rw [h.row_length hu]; exact hd)]

theorem calcZip_shape {O I : ℕ} {means stds : List (List FV)}
    (hm : Shape O I means) (hs : Shape O I stds) :
    Shape O I (calcZip means stds) :=
  zipWith_zipWith_shape _ hm hs

theorem calcZip_getRC {O I : ℕ} {means stds : List (List FV)}
    (hm : Shape O I means) (hs : Shape O I stds) {u d : ℕ} (hu : u < O)
    (hd : d < I) :
    getRC (calcZip means stds) u d =
      { Mean := (means.getD u []).getD d .nan,
        StdDev := (stds.getD u []).getD d .nan } := by
  rw [getRC, calcZip, getD_zipWith _ [] [] [] means stds u
    (by rw [hm.1]; exact hu) (by rw [hs.1]; exact hu)]
  exact getD_zipWith _ FV.nan FV.nan ({ Mean := FV.nan, StdDev := FV.nan } :
      Random)
    (means.getD u []) (stds.getD u []) d
    (by rw [hm.row_length hu]; exact hd) (by rw [hs.row_length hu]; exact hd)

theorem calculateStatistics_char (sq : ℚ → ℚ) (w : ℤ) (O I : ℕ)
    (systems : List Sample) (h1 : 1 ≤ w) (h2 : w ≤ (systems.length : ℤ))
    (hs : NShape O I systems) :
    ∃ S, calculateStatistics sq w O I systems = .ok S ∧ Shape O I S ∧
      ∀ u, u < O → ∀ d, d < I →
        getRC S u d =
          { Mean := .fin (eliteMean (systems.take w.toNat) w u d),
            StdDev := .fin (sq (eliteVar (systems.take w.toNat) w u d)) } := by
  have hguard : ¬(w < 0 ∨ (systems.length : ℤ) < w) := by omega
  have hwq : ((w : ℤ) : ℚ) ≠ 0 := by
    rw [Int.cast_ne_zero]
    omega
  have hne : NShape O I (systems.take w.toNat) :=
    fun m hm => hs m (List.take_subset _ _ hm)
  have hsums := calcSums_shape hne
  have hmeans := @calcMeans_shape _ _ w _ hsums
  have hvars := calcVars_shape hmeans hne
  have hstds := @calcStds_shape _ _ sq w _ hvars
  rw [calculateStatistics, if_neg hguard]
  refine ⟨_, rfl, calcZip_shape hmeans hstds, ?_⟩
  intro u hu d hd
  have hmeans_getD : ((calcMeans w (calcSums O I
      (systems.take w.toNat))).getD u []).getD d .nan =
      .fin (eliteMean (systems.take w.toNat) w u d) := by
    rw [calcMeans_getD hsums hu hd, calcSums_getD hne hu hd,
      FV.div_fin _ hwq]
    rfl
  rw [calcZip_getRC hmeans hstds hu hd, hmeans_getD,
    calcStds_getD hvars hu hd, calcVars_getD hmeans hne hu hd hmeans_getD,
    FV.div_fin _ hwq]
  rfl

/-- Off-guard form of the statistics update: a window strictly outside
`[0, len]` is the `systems[:window]` slice panic. -/
theorem calculateStatistics_panic (sq : ℚ → ℚ) (w : ℤ) (O I : ℕ)
    (systems : List Sample) (h : w < 0 ∨ (systems.length : ℤ) < w) :
    calculateStatistics sq w O I systems = .error .slicePanic := by
  rw [calculateStatistics, if_pos h]

/-! Facts about the population loop, for an arbitrary rng value. -/

theorem sampleEnsemble_pop_length (s : Set) (input : List ℚ) (r : Rng) :
    (sampleEnsemble s input r).1.length = Samples := by
  rw [sampleEnsemble_eq, ensembleAux_pop_length]

theorem sampleEnsemble_rng (s : Set) (input : List ℚ) (r : Rng) :
    (sampleEnsemble s input r).2.2 =
      { stream := r.stream, pos := r.pos + Samples * sizeSum s } := by
  cases r with
  | mk g p => rw [sampleEnsemble_eq, ensembleAux_rng]

theorem sampleEnsemble_mem (s : Set) (input : List ℚ) (r : Rng) :
    ∀ m ∈ (sampleEnsemble s input r).1, m.Entropy = 0 ∧
      ∃ q, m.Neurons = sampleBankSpec r.stream q s ∧
        m.Outputs = (sampleBankSpec r.stream q s).map (fun nrow => dot nrow input) := by
  cases r with
  | mk g p =>
    rw [sampleEnsemble_eq]
    exact ensembleAux_mem s input g p Samples

theorem sampleEnsemble_shape {O I : ℕ} {s : Set} (hs : Shape O I s)
    (input : List ℚ) (r : Rng) : NShape O I (sampleEnsemble s input r).1 := by
  intro m hm
  obtain ⟨-, q, hn, -⟩ := sampleEnsemble_mem s input r m hm
  rw [hn]
  exact shape_sampleBankSpec _ _ hs

theorem NShape_of_assign {O I : ℕ} {ss out : List Sample} {es : List ℚ}
    (h : assignEntropies ss es = some out) (hs : NShape O I ss) :
    NShape O I out := by
  intro m hm
  obtain ⟨m0, hm0, hn, -⟩ := assignEntropies_mem h m hm
  rw [hn]
  exact hs m0 hm0

theorem NShape_sortSystems {O I : ℕ} {l : List Sample} (h : NShape O I l) :
    NShape O I (sortSystems l) :=
  fun m hm => h m (mem_sortSystems.mp hm)

/-! The population sort as a permutation of positions: when the entropy
sequence of a population is `es`, sorting the population by entropy is the
same as reading the population off along the fitness-ranked index list
`rankedIndices es`.  This is what makes the elitism of the three banks a
single joint ranking in multi-bank mode. -/

theorem map_getD_range (l : List α) (d : α) :
    (List.range l.length).map (fun i => l.getD i d) = l := by
  apply List.ext_getElem
  · simp
  · intro i h1 h2
    simp only [List.getElem_map, List.getElem_range]
    exact List.getD_eq_getElem l d h2

theorem entropy_getD_of_map {l : List Sample} {es : List ℚ}
    (hmap : l.map Sample.Entropy = es) {i : ℕ} (hi : i < l.length) :
    (l.getD i default).Entropy = es.getD i 0 := by
  rw [← hmap]
  exact (getD_map Sample.Entropy default 0 l i hi).symm

theorem sortSystems_eq_ranked {l : List Sample} {es : List ℚ}
    (hlen : l.length = es.length) (hmap : l.map Sample.Entropy = es) :
    sortSystems l = (rankedIndices es).map (fun i => l.getD i default) := by
  have hm : (List.range es.length).map (fun i => l.getD i default) = l := by
    rw [← hlen]
    exact map_getD_range l default
  have hl : ∀ a ∈ List.range es.length, ∀ b ∈ List.range es.length,
      scoreLE es a b ↔ entLE (l.getD a default) (l.getD b default) := by
    intro a ha b hb
    rw [List.mem_range] at ha hb
    unfold scoreLE entLE
    rw [entropy_getD_of_map hmap (by omega), entropy_getD_of_map hmap (by omega)]
  have hmain := List.map_insertionSort (scoreLE es) entLE
    (fun i => l.getD i default) (List.range es.length) hl
  rw [hm] at hmain
  unfold sortSystems rankedIndices
  exact hmain.symm

/-! Nonnegativity of the biased elite variance. -/

theorem eliteVar_nonneg (elite : List Sample) (w : ℤ) (u d : ℕ)
    (hw : 1 ≤ w) : 0 ≤ eliteVar elite w u d := by
  apply div_nonneg
  · apply List.sum_nonneg
    intro x hx
    rw [List.mem_map] at hx
    obtain ⟨m, -, rfl⟩ := hx
    positivity
  · exact_mod_cast (by omega : (0 : ℤ) ≤ w)

/-! Draw counting. -/

theorem sizeSum_of_shape {O I : ℕ} {s : Set} (h : Shape O I s) :
    sizeSum s = O * I := by
  rw [sizeSum]
  have hmap : s.map List.length = List.replicate O I := by
    apply List.eq_replicate_iff.mpr
    constructor
    · rw [List.length_map, h.1]
    · intro b hb
      rw [List.mem_map] at hb
      obtain ⟨row, hrow, rfl⟩ := hb
      exact h.2 row hrow
  rw [hmap]
  simp [List.sum_replicate, smul_eq_mul]

/-! The degenerate `window = 0` statistics update: every coordinate is
divided by zero, i.e. the whole belief table becomes `NaN`. -/

theorem zipWith_replicate_self (f : α → β → γ) (a : α) (b : β) :
    ∀ n, List.zipWith f (List.replicate n a) (List.replicate n b) =
      List.replicate n (f a b) := by
  intro n
  induction n with
  | zero => rfl
  | succ n ih => simp [List.replicate_succ, ih]

theorem calculateStatistics_zero_window (sq : ℚ → ℚ) (O I : ℕ)
    (systems : List Sample) :
    calculateStatistics sq 0 O I systems =
      .ok (List.replicate O (List.replicate I
        { Mean := FV.nan, StdDev := FV.nan })) := by
  have htake : List.take (0 : ℤ).toNat systems = [] := by simp
  have hsums : calcSums O I [] =
      List.replicate O (List.replicate I (0 : ℚ)) := rfl
  have hmeans : calcMeans 0 (calcSums O I []) =
      List.replicate O (List.replicate I FV.nan) := by
    rw [hsums, calcMeans]
    simp only [List.map_replicate]
    rw [show FV.div (.fin 0) (.fin (((0 : ℤ) : ℤ) : ℚ)) = FV.nan from by
      simp [FV.div]]
  have hvars : calcVars (calcMeans 0 (calcSums O I [])) O I [] =
      List.replicate O (List.replicate I (FV.fin 0)) := rfl
  have hstds : calcStds sq 0 (calcVars (calcMeans 0 (calcSums O I [])) O I []) =
      List.replicate O (List.replicate I FV.nan) := by
    rw [hvars, calcStds]
    simp only [List.map_replicate]
    rw [show FV.sqrtF sq (FV.div (.fin 0) (.fin (((0 : ℤ) : ℤ) : ℚ))) = FV.nan
      from by simp [FV.div]]
  simp only [calculateStatistics]
  rw [if_neg (by omega), htake, hstds, hmeans, calcZip,
    zipWith_replicate_self, zipWith_replicate_self]

theorem mem_mem_sampleBankSpec {g : ℕ → ℚ} :
    ∀ (s : List (List Random)) (p : ℕ), ∀ row ∈ sampleBankSpec g p s,
      ∀ x ∈ row, x = 1 ∨ x = -1 := by
  intro s
  induction s with
  | nil => intro p row hrow; simp [sampleBankSpec] at hrow
  | cons r rest ih =>
    intro p row hrow x hx
    simp only [sampleBankSpec, List.mem_cons] at hrow
    rcases hrow with h | h
    · subst h
      exact mem_sampleRowSpec hx
    · exact ih _ row h x hx

/-- C7: for every coordinate `(u, d)` the Sampler consumes the stream draw
at offset `u * I + d`, computes `x = mean + z * stddev`, and quantizes the
weight to `+1` exactly when `x > 0` and to `-1` otherwise — so a draw with
`x` exactly `0` always yields `-1` — and every sampled weight entry is
exactly `+1` or `-1`. -/
theorem sampler_sign_quantization (s : Set) (g : ℕ → ℚ) (p : ℕ) {O I : ℕ}
    (hs : Shape O I s) {u d : ℕ} (hu : u < O) (hd : d < I) (m σ : ℚ)
    (hstat : (s.getD u []).getD d { Mean := .nan, StdDev := .nan } =
      { Mean := .fin m, StdDev := .fin σ }) :
    (((Set.Sample s { stream := g, pos := p }).1.getD u []).getD d 0 =
      if 0 < m + g (p + u * I + d) * σ then 1 else -1) ∧
    (m + g (p + u * I + d) * σ = 0 →
      ((Set.Sample s { stream := g, pos := p }).1.getD u []).getD d 0 = -1) ∧
    (∀ row ∈ (Set.Sample s { stream := g, pos := p }).1, ∀ x ∈ row,
      x = 1 ∨ x = -1) := by
  have hbank : (Set.Sample s { stream := g, pos := p }).1 =
      sampleBankSpec g p s := by
    rw [Set.Sample_eq]
  have hval : ((Set.Sample s { stream := g, pos := p }).1.getD u []).getD d 0 =
      sampleWeight (g (p + u * I + d)) { Mean := .fin m, StdDev := .fin σ } := by
    rw [hbank, getElem_sampleBankSpec g s p u d hs.2
      (by rw [hs.1]; exact hu) hd, hstat]
  refine ⟨?_, ?_, ?_⟩
  · by_cases h : 0 < m + g (p + u * I + d) * σ
    · have h2 : 0 < g (p + u * I + d) * σ + m := by linarith
      rw [hval, if_pos h, sampleWeight]
      simp [h2]
    · have h2 : ¬ 0 < g (p + u * I + d) * σ + m := fun hc => h (by linarith)
      rw [hval, if_neg h, sampleWeight]
      simp [h2]
  · intro h0
    have h2 : ¬ 0 < g (p + u * I + d) * σ + m := fun hc => by
      rw [show g (p + u * I + d) * σ + m = m + g (p + u * I + d) * σ from by
        ring, h0] at hc
      exact lt_irrefl 0 hc
    rw [hval, sampleWeight]
    simp [h2]
  · rw [hbank]
    exact mem_mem_sampleBankSpec s p

/-- C6 counterexample: `SetWindow(0)` is not rejected; it overwrites the
stored window (8 becomes 0), contradicting "the stored window is left
unchanged" of the claim. -/
theorem setWindow_zero_accepted :
    ((QKV.NewNet (fun _ => 0) 8 1 1).SetWindow 0).window = 0 ∧
    ¬ ((QKV.NewNet (fun _ => 0) 8 1 1).SetWindow 0).window =
      (QKV.NewNet (fun _ => 0) 8 1 1).window := by
  constructor
  · rfl
  · decide

/-- C6 amended: neither `NewNet` nor `SetWindow` validates the window in
either variant; `SetWindow` stores any `int64` unconditionally (an atomic
store) and leaves the belief tables untouched, and `NewNet` accepts any
window value.  Out-of-range windows surface only inside a later `Fire`
call. -/
theorem setWindow_stores_unvalidated (w w0 : ℤ) (nq : QKV.Net)
    (ns : SingleBank.Net) (g : ℕ → ℚ) (i o : ℕ) :
    (nq.SetWindow w).window = w ∧ (nq.SetWindow w).Q = nq.Q ∧
    (nq.SetWindow w).K = nq.K ∧ (nq.SetWindow w).V = nq.V ∧
    (ns.SetWindow w).window = w ∧
    (ns.SetWindow w).Distribution = ns.Distribution ∧
    (QKV.NewNet g w0 i o).window = w0 ∧
    (SingleBank.NewNet g w0 i o).window = w0 :=
  ⟨rfl, rfl, rfl, rfl, rfl, rfl, rfl, rfl⟩

end Testament

namespace Testament.QKV

/-! Characterization of the multi-bank `Fire` on a well-configured call:
the entropy assignment succeeds, each bank's statistics update succeeds on
its entropy-sorted population, and the call returns the best-ranked V
output while replacing the three banks with the elite-prefix estimates. -/

theorem Fire_char (sq : ℚ → ℚ)
    (oracle : Testament.Matrix → Testament.Matrix → Testament.Matrix → List ℚ)
    (n : Net) (input : List ℚ)
    (hw1 : 1 ≤ n.window) (hw2 : n.window ≤ (Samples : ℤ))
    (hQ : Shape n.Outputs n.Inputs n.Q) (hK : Shape n.Outputs n.Inputs n.K)
    (hV : Shape n.Outputs n.Inputs n.V)
    (hor : (scores oracle n input).length ≤ Samples) :
    assignEntropies (ensQ n input).1 (scores oracle n input) =
        some (assignedQ oracle n input) ∧
    assignEntropies (ensK n input).1 (scores oracle n input) =
        some (assignedK oracle n input) ∧
    assignEntropies (ensV n input).1 (scores oracle n input) =
        some (assignedV oracle n input) ∧
    ∃ SQ SK SV,
      n.CalculateStatistics sq (sortSystems (assignedQ oracle n input)) = .ok SQ ∧
      n.CalculateStatistics sq (sortSystems (assignedK oracle n input)) = .ok SK ∧
      n.CalculateStatistics sq (sortSystems (assignedV oracle n input)) = .ok SV ∧
      n.Fire sq oracle input =
        (.ok (sortSystems (assignedV oracle n input)).headI.Outputs,
         { n with Rng := (ensV n input).2.2, Q := SQ, K := SK, V := SV }) ∧
      Shape n.Outputs n.Inputs SQ ∧ Shape n.Outputs n.Inputs SK ∧
      Shape n.Outputs n.Inputs SV ∧
      (∀ u, u < n.Outputs → ∀ d, d < n.Inputs →
        getRC SQ u d =
          { Mean := .fin (eliteMean ((sortSystems (assignedQ oracle n
              input)).take n.window.toNat) n.window u d),
            StdDev := .fin (sq (eliteVar ((sortSystems (assignedQ oracle n
              input)).take n.window.toNat) n.window u d)) }) ∧
      (∀ u, u < n.Outputs → ∀ d, d < n.Inputs →
        getRC SK u d =
          { Mean := .fin (eliteMean ((sortSystems (assignedK oracle n
              input)).take n.window.toNat) n.window u d),
            StdDev := .fin (sq (eliteVar ((sortSystems (assignedK oracle n
              input)).take n.window.toNat) n.window u d)) }) ∧
      (∀ u, u < n.Outputs → ∀ d, d < n.Inputs →
        getRC SV u d =
          { Mean := .fin (eliteMean ((sortSystems (assignedV oracle n
              input)).take n.window.toNat) n.window u d),
            StdDev := .fin (sq (eliteVar ((sortSystems (assignedV oracle n
              input)).take n.window.toNat) n.window u d)) }) := by
  have hlenQ : (ensQ n input).1.length = Samples :=
    sampleEnsemble_pop_length _ _ _
  have hlenK : (ensK n input).1.length = Samples :=
    sampleEnsemble_pop_length _ _ _
  have hlenV : (ensV n input).1.length = Samples :=
    sampleEnsemble_pop_length _ _ _
  have haq : assignEntropies (ensQ n input).1 (scores oracle n input) =
      some (assignedQ oracle n input) := by
    rw [assignedQ, assignEntropies_some (by rw [hlenQ]; exact hor)]
    rfl
  have hak : assignEntropies (ensK n input).1 (scores oracle n input) =
      some (assignedK oracle n input) := by
    rw [assignedK, assignEntropies_some (by rw [hlenK]; exact hor)]
    rfl
  have hav : assignEntropies (ensV n input).1 (scores oracle n input) =
      some (assignedV oracle n input) := by
    rw [assignedV, assignEntropies_some (by rw [hlenV]; exact hor)]
    rfl
  have hsortQ : (sortSystems (assignedQ oracle n input)).length = Samples := by
    rw [sortSystems_length, assignEntropies_length haq, hlenQ]
  have hsortK : (sortSystems (assignedK oracle n input)).length = Samples := by
    rw [sortSystems_length, assignEntropies_length hak, hlenK]
  have hsortV : (sortSystems (assignedV oracle n input)).length = Samples := by
    rw [sortSystems_length, assignEntropies_length hav, hlenV]
  have hnsQ : NShape n.Outputs n.Inputs (sortSystems (assignedQ oracle n input)) :=
    NShape_sortSystems (NShape_of_assign haq
      (sampleEnsemble_shape hQ input n.Rng))
  have hnsK : NShape n.Outputs n.Inputs (sortSystems (assignedK oracle n input)) :=
    NShape_sortSystems (NShape_of_assign hak
      (sampleEnsemble_shape hK input (ensQ n input).2.2))
  have hnsV : NShape n.Outputs n.Inputs (sortSystems (assignedV oracle n input)) :=
    NShape_sortSystems (NShape_of_assign hav
      (sampleEnsemble_shape hV input (ensK n input).2.2))
  obtain ⟨SQ, hSQ, hshQ, hcoQ⟩ := calculateStatistics_char sq n.window
    n.Outputs n.Inputs (sortSystems (assignedQ oracle n input)) hw1
    (by rw [hsortQ]; exact hw2) hnsQ
  obtain ⟨SK, hSK, hshK, hcoK⟩ := calculateStatistics_char sq n.window
    n.Outputs n.Inputs (sortSystems (assignedK oracle n input)) hw1
    (by rw [hsortK]; exact hw2) hnsK
  obtain ⟨SV, hSV, hshV, hcoV⟩ := calculateStatistics_char sq n.window
    n.Outputs n.Inputs (sortSystems (assignedV oracle n input)) hw1
    (by rw [hsortV]; exact hw2) hnsV
  refine ⟨haq, hak, hav, SQ, SK, SV, hSQ, hSK, hSV, ?_, hshQ, hshK, hshV,
    hcoQ, hcoK, hcoV⟩
  simp only [Net.Fire, haq, hak, hav, Net.CalculateStatistics, hSQ, hSK, hSV]

end Testament.QKV

namespace Testament.QKV

/-- C8: determinism as a two-run property — for a fixed seed (modelled by
its draw stream), fixed belief state, fixed input vector and a
deterministic oracle, two `Fire` calls on freshly constructed, identically
configured networks produce identical output vectors and identical
resulting belief tables.  In the embedding the seeded rng is the explicit
draw stream, so the whole call is a function of the constructor
arguments. -/
theorem fire_deterministic (sq : ℚ → ℚ)
    (oracle : Testament.Matrix → Testament.Matrix → Testament.Matrix → List ℚ)
    (g : ℕ → ℚ) (w : ℤ) (inputs outputs : ℕ) (input : List ℚ) (n1 n2 : Net)
    (h1 : n1 = NewNet g w inputs outputs) (h2 : n2 = NewNet g w inputs outputs) :
    (n1.Fire sq oracle input).1 = (n2.Fire sq oracle input).1 ∧
    (n1.Fire sq oracle input).2.Q = (n2.Fire sq oracle input).2.Q ∧
    (n1.Fire sq oracle input).2.K = (n2.Fire sq oracle input).2.K ∧
    (n1.Fire sq oracle input).2.V = (n2.Fire sq oracle input).2.V := by
  subst h1
  subst h2
  exact ⟨rfl, rfl, rfl, rfl⟩

/-- C2: on a well-configured `Fire` call the elite subset is the first
`window` entries of the entropy-sorted population (which is a sorted
permutation of the scored population, of size exactly `window`), and each
bank's new belief at every coordinate is exactly the arithmetic elite mean
and the square root of the biased elite variance — computed over the elite
subset alone, with no contribution from non-elite samples or the previous
belief. -/
theorem fire_elite_estimator (sq : ℚ → ℚ)
    (oracle : Testament.Matrix → Testament.Matrix → Testament.Matrix → List ℚ)
    (n : Net) (input : List ℚ)
    (hw1 : 1 ≤ n.window) (hw2 : n.window ≤ (Samples : ℤ))
    (hQ : Shape n.Outputs n.Inputs n.Q) (hK : Shape n.Outputs n.Inputs n.K)
    (hV : Shape n.Outputs n.Inputs n.V)
    (hor : (scores oracle n input).length = Samples) :
    (n.Fire sq oracle input).1.isOk = true ∧
    List.Sorted entLE (sortSystems (assignedQ oracle n input)) ∧
    List.Perm (sortSystems (assignedQ oracle n input)) (assignedQ oracle n input) ∧
    ((sortSystems (assignedQ oracle n input)).take n.window.toNat).length =
      n.window.toNat ∧
    (∀ u, u < n.Outputs → ∀ d, d < n.Inputs →
      getRC (n.Fire sq oracle input).2.Q u d =
        { Mean := .fin (eliteMean ((sortSystems (assignedQ oracle n
            input)).take n.window.toNat) n.window u d),
          StdDev := .fin (sq (eliteVar ((sortSystems (assignedQ oracle n
            input)).take n.window.toNat) n.window u d)) }) ∧
    (∀ u, u < n.Outputs → ∀ d, d < n.Inputs →
      getRC (n.Fire sq oracle input).2.K u d =
        { Mean := .fin (eliteMean ((sortSystems (assignedK oracle n
            input)).take n.window.toNat) n.window u d),
          StdDev := .fin (sq (eliteVar ((sortSystems (assignedK oracle n
            input)).take n.window.toNat) n.window u d)) }) ∧
    (∀ u, u < n.Outputs → ∀ d, d < n.Inputs →
      getRC (n.Fire sq oracle input).2.V u d =
        { Mean := .fin (eliteMean ((sortSystems (assignedV oracle n
            input)).take n.window.toNat) n.window u d),
          StdDev := .fin (sq (eliteVar ((sortSystems (assignedV oracle n
            input)).take n.window.toNat) n.window u d)) }) := by
  obtain ⟨haq, hak, hav, SQ, SK, SV, hSQ, hSK, hSV, hfire, hshQ, hshK, hshV,
    hcoQ, hcoK, hcoV⟩ := Fire_char sq oracle n input hw1 hw2 hQ hK hV
    (le_of_eq hor)
  have hsortQ : (sortSystems (assignedQ oracle n input)).length = Samples := by
    rw [sortSystems_length, assignEntropies_length haq]
    exact sampleEnsemble_pop_length _ _ _
  refine ⟨?_, sortSystems_sorted _, sortSystems_perm _, ?_, ?_, ?_, ?_⟩
  · rw [hfire]
    rfl
  · rw [List.length_take, hsortQ]
    have : n.window.toNat ≤ Samples := by omega
    omega
  · intro u hu d hd
    rw [hfire]
    exact hcoQ u hu d hd
  · intro u hu d hd
    rw [hfire]
    exact hcoK u hu d hd
  · intro u hu d hd
    rw [hfire]
    exact hcoV u hu d hd

/-- C4: in multi-bank mode one `SelfEntropy` call produces one score list;
score `i` is assigned to the Q, K and V members at position `i` (the three
entropy sequences all equal the score list), each bank's sort is the same
permutation of positions — reading the population off along the single
fitness ranking `rankedIndices` of the shared scores — so the three elite
selections are the same index set `eliteIndices`, and the three belief
updates are computed from those jointly selected populations. -/
theorem fire_joint_ranking (sq : ℚ → ℚ)
    (oracle : Testament.Matrix → Testament.Matrix → Testament.Matrix → List ℚ)
    (n : Net) (input : List ℚ)
    (hw1 : 1 ≤ n.window) (hw2 : n.window ≤ (Samples : ℤ))
    (hQ : Shape n.Outputs n.Inputs n.Q) (hK : Shape n.Outputs n.Inputs n.K)
    (hV : Shape n.Outputs n.Inputs n.V)
    (hor : (scores oracle n input).length = Samples) :
    ((assignedQ oracle n input).map Sample.Entropy = scores oracle n input) ∧
    ((assignedK oracle n input).map Sample.Entropy = scores oracle n input) ∧
    ((assignedV oracle n input).map Sample.Entropy = scores oracle n input) ∧
    (sortSystems (assignedQ oracle n input) =
      (rankedIndices (scores oracle n input)).map
        (fun i => (assignedQ oracle n input).getD i default)) ∧
    (sortSystems (assignedK oracle n input) =
      (rankedIndices (scores oracle n input)).map
        (fun i => (assignedK oracle n input).getD i default)) ∧
    (sortSystems (assignedV oracle n input) =
      (rankedIndices (scores oracle n input)).map
        (fun i => (assignedV oracle n input).getD i default)) ∧
    ((sortSystems (assignedQ oracle n input)).take n.window.toNat =
      (eliteIndices (scores oracle n input) n.window.toNat).map
        (fun i => (assignedQ oracle n input).getD i default)) ∧
    ((sortSystems (assignedK oracle n input)).take n.window.toNat =
      (eliteIndices (scores oracle n input) n.window.toNat).map
        (fun i => (assignedK oracle n input).getD i default)) ∧
    ((sortSystems (assignedV oracle n input)).take n.window.toNat =
      (eliteIndices (scores oracle n input) n.window.toNat).map
        (fun i => (assignedV oracle n input).getD i default)) ∧
    (n.CalculateStatistics sq (sortSystems (assignedQ oracle n input)) =
      .ok ((n.Fire sq oracle input).2.Q)) ∧
    (n.CalculateStatistics sq (sortSystems (assignedK oracle n input)) =
      .ok ((n.Fire sq oracle input).2.K)) ∧
    (n.CalculateStatistics sq (sortSystems (assignedV oracle n input)) =
      .ok ((n.Fire sq oracle input).2.V)) := by
  obtain ⟨haq, hak, hav, SQ, SK, SV, hSQ, hSK, hSV, hfire, -, -, -, -, -, -⟩ :=
    Fire_char sq oracle n input hw1 hw2 hQ hK hV (le_of_eq hor)
  have hlenQ : (assignedQ oracle n input).length = (scores oracle n input).length := by
    rw [assignEntropies_length haq, hor]
    exact sampleEnsemble_pop_length _ _ _
  have hlenK : (assignedK oracle n input).length = (scores oracle n input).length := by
    rw [assignEntropies_length hak, hor]
    exact sampleEnsemble_pop_length _ _ _
  have hlenV : (assignedV oracle n input).length = (scores oracle n input).length := by
    rw [assignEntropies_length hav, hor]
    exact sampleEnsemble_pop_length _ _ _
  have hmapQ : (assignedQ oracle n input).map Sample.Entropy =
      scores oracle n input :=
    assignEntropies_map_entropy
      (by rw [hor]; exact (sampleEnsemble_pop_length _ _ _).symm) haq
  have hmapK : (assignedK oracle n input).map Sample.Entropy =
      scores oracle n input :=
    assignEntropies_map_entropy
      (by rw [hor]; exact (sampleEnsemble_pop_length _ _ _).symm) hak
  have hmapV : (assignedV oracle n input).map Sample.Entropy =
      scores oracle n input :=
    assignEntropies_map_entropy
      (by rw [hor]; exact (sampleEnsemble_pop_length _ _ _).symm) hav
  have hrankQ := sortSystems_eq_ranked hlenQ hmapQ
  have hrankK := sortSystems_eq_ranked hlenK hmapK
  have hrankV := sortSystems_eq_ranked hlenV hmapV
  refine ⟨hmapQ, hmapK, hmapV, hrankQ, hrankK, hrankV, ?_, ?_, ?_, ?_, ?_, ?_⟩
  · rw [hrankQ, eliteIndices, List.map_take]
  · rw [hrankK, eliteIndices, List.map_take]
  · rw [hrankV, eliteIndices, List.map_take]
  · rw [hfire]
    exact hSQ
  · rw [hfire]
    exact hSK
  · rw [hfire]
    exact hSV

/-- C9: belief-table invariants — at construction every `(mean, stddev)`
pair is `(0, 1)` and the tables have the configured `(O, I)` dimensions;
after a well-configured `Fire` call every standard deviation of every bank
is a nonnegative finite value (`0` is permitted and raises no error), and
the `(O, I)` dimensions are preserved by the update. -/
theorem belief_invariants (sq : ℚ → ℚ)
    (oracle : Testament.Matrix → Testament.Matrix → Testament.Matrix → List ℚ)
    (n : Net) (input : List ℚ)
    (hw1 : 1 ≤ n.window) (hw2 : n.window ≤ (Samples : ℤ))
    (hQ : Shape n.Outputs n.Inputs n.Q) (hK : Shape n.Outputs n.Inputs n.K)
    (hV : Shape n.Outputs n.Inputs n.V)
    (hor : (scores oracle n input).length = Samples)
    (hsq : ∀ x : ℚ, 0 ≤ x → 0 ≤ sq x)
    (g : ℕ → ℚ) (w0 : ℤ) (i o : ℕ) :
    (∀ u, u < o → ∀ d, d < i →
      getRC (NewNet g w0 i o).Q u d = { Mean := .fin 0, StdDev := .fin 1 } ∧
      getRC (NewNet g w0 i o).K u d = { Mean := .fin 0, StdDev := .fin 1 } ∧
      getRC (NewNet g w0 i o).V u d = { Mean := .fin 0, StdDev := .fin 1 }) ∧
    Shape o i (NewNet g w0 i o).Q ∧ Shape o i (NewNet g w0 i o).K ∧
    Shape o i (NewNet g w0 i o).V ∧
    (n.Fire sq oracle input).1.isOk = true ∧
    Shape n.Outputs n.Inputs (n.Fire sq oracle input).2.Q ∧
    Shape n.Outputs n.Inputs (n.Fire sq oracle input).2.K ∧
    Shape n.Outputs n.Inputs (n.Fire sq oracle input).2.V ∧
    (∀ u, u < n.Outputs → ∀ d, d < n.Inputs →
      (∃ v : ℚ, 0 ≤ v ∧
        (getRC (n.Fire sq oracle input).2.Q u d).StdDev = .fin v) ∧
      (∃ v : ℚ, 0 ≤ v ∧
        (getRC (n.Fire sq oracle input).2.K u d).StdDev = .fin v) ∧
      (∃ v : ℚ, 0 ≤ v ∧
        (getRC (n.Fire sq oracle input).2.V u d).StdDev = .fin v)) := by
  obtain ⟨haq, hak, hav, SQ, SK, SV, hSQ, hSK, hSV, hfire, hshQ, hshK, hshV,
    hcoQ, hcoK, hcoV⟩ := Fire_char sq oracle n input hw1 hw2 hQ hK hV
    (le_of_eq hor)
  have hprior : ∀ u, u < o → ∀ d, d < i →
      getRC (NewStatistics i o) u d = { Mean := .fin 0, StdDev := .fin 1 } := by
    intro u hu d hd
    rw [NewStatistics, getRC, getD_replicate [] hu, getD_replicate _ hd]
  refine ⟨fun u hu d hd => ⟨hprior u hu d hd, hprior u hu d hd,
      hprior u hu d hd⟩,
    replicate_shape _, replicate_shape _, replicate_shape _, ?_, ?_, ?_, ?_, ?_⟩
  · rw [hfire]
    rfl
  · rw [hfire]
    exact hshQ
  · rw [hfire]
    exact hshK
  · rw [hfire]
    exact hshV
  · intro u hu d hd
    have hnn := fun ax : List Sample =>
      eliteVar_nonneg (ax.take n.window.toNat) n.window u d hw1
    refine ⟨⟨sq (eliteVar ((sortSystems (assignedQ oracle n input)).take
        n.window.toNat) n.window u d), hsq _ (hnn _), ?_⟩,
      ⟨sq (eliteVar ((sortSystems (assignedK oracle n input)).take
        n.window.toNat) n.window u d), hsq _ (hnn _), ?_⟩,
      ⟨sq (eliteVar ((sortSystems (assignedV oracle n input)).take
        n.window.toNat) n.window u d), hsq _ (hnn _), ?_⟩⟩
    · rw [hfire]
      show (getRC SQ u d).StdDev = _
      rw [hcoQ u hu d hd]
    · rw [hfire]
      show (getRC SK u d).StdDev = _
      rw [hcoK u hu d hd]
    · rw [hfire]
      show (getRC SV u d).StdDev = _
      rw [hcoV u hu d hd]

/-- C5 amended: `Fire` performs no validation of the oracle's score list.
When the oracle returns at most `P` scores — in particular any count
strictly less than `P` — the call completes normally (missing entropies
stay `0`) and the belief tables are replaced; no error is surfaced.  Only
a count strictly greater than `P` aborts the call, via the index
out-of-range panic of the assignment loop, in which case the rng has
advanced but the belief tables are untouched. -/
theorem fire_no_oracle_validation (sq : ℚ → ℚ)
    (oracle oracle2 : Testament.Matrix → Testament.Matrix → Testament.Matrix → List ℚ)
    (n : Net) (input : List ℚ)
    (hw1 : 1 ≤ n.window) (hw2 : n.window ≤ (Samples : ℤ))
    (hQ : Shape n.Outputs n.Inputs n.Q) (hK : Shape n.Outputs n.Inputs n.K)
    (hV : Shape n.Outputs n.Inputs n.V)
    (hshort : (scores oracle n input).length ≤ Samples)
    (hlong : Samples < (scores oracle2 n input).length) :
    (n.Fire sq oracle input).1.isOk = true ∧
    n.Fire sq oracle2 input =
      (.error .indexPanic, { n with Rng := (ensV n input).2.2 }) ∧
    (n.Fire sq oracle2 input).2.Q = n.Q ∧
    (n.Fire sq oracle2 input).2.K = n.K ∧
    (n.Fire sq oracle2 input).2.V = n.V := by
  obtain ⟨-, -, -, SQ, SK, SV, -, -, -, hfire, -, -, -, -, -, -⟩ :=
    Fire_char sq oracle n input hw1 hw2 hQ hK hV hshort
  have hnq : assignEntropies (ensQ n input).1 (scores oracle2 n input) = none :=
    assignEntropies_none
      (by rw [show (ensQ n input).1.length = Samples from
        sampleEnsemble_pop_length _ _ _]; exact hlong)
  have hnk : assignEntropies (ensK n input).1 (scores oracle2 n input) = none :=
    assignEntropies_none
      (by rw [show (ensK n input).1.length = Samples from
        sampleEnsemble_pop_length _ _ _]; exact hlong)
  have hnv : assignEntropies (ensV n input).1 (scores oracle2 n input) = none :=
    assignEntropies_none
      (by rw [show (ensV n input).1.length = Samples from
        sampleEnsemble_pop_length _ _ _]; exact hlong)
  have hfire2 : n.Fire sq oracle2 input =
      (.error .indexPanic, { n with Rng := (ensV n input).2.2 }) := by
    simp only [Net.Fire, hnq, hnk, hnv]
  refine ⟨by rw [hfire]; rfl, hfire2, ?_, ?_, ?_⟩ <;> rw [hfire2]

end Testament.QKV

namespace Testament.SingleBank

/-- C10: `SetWindow` stores any `int64` without validation.  A stored
window of `0` makes the next `Fire` call divide every accumulated mean and
standard deviation by zero, so the call completes and replaces the whole
belief table with `NaN` values; a stored window that is negative or larger
than the population size makes the next `Fire` call fail at the
`systems[:window]` slice expression.  In both cases the failure comes only
after sampling has consumed the full population's random draws (the rng
position has advanced by `Samples * O * I`). -/
theorem setWindow_unvalidated_fire_fails_late (sq : ℚ → ℚ)
    (oracle : Testament.Matrix → Testament.Matrix → Testament.Matrix → List ℚ)
    (n : Net) (input : List ℚ)
    (hD : Shape n.Outputs n.Inputs n.Distribution)
    (hor : (scores oracle n input).length ≤ Samples) :
    (∀ w : ℤ, (n.SetWindow w).window = w) ∧
    (n.window = 0 →
      n.Fire sq oracle input =
        (.ok (assigned oracle n input).headI.Outputs,
         { n with
           Rng := (ens n input).2.2
           Distribution := List.replicate n.Outputs (List.replicate n.Inputs
             { Mean := FV.nan, StdDev := FV.nan }) }) ∧
      (ens n input).2.2.pos = n.Rng.pos + Samples * (n.Outputs * n.Inputs)) ∧
    ((n.window < 0 ∨ (Samples : ℤ) < n.window) →
      n.Fire sq oracle input =
        (.error .slicePanic, { n with Rng := (ens n input).2.2 }) ∧
      (n.Fire sq oracle input).2.Distribution = n.Distribution ∧
      (ens n input).2.2.pos = n.Rng.pos + Samples * (n.Outputs * n.Inputs)) := by
  have hassign : assignEntropies (ens n input).1 (scores oracle n input) =
      some (assigned oracle n input) := by
    rw [assigned, assignEntropies_some
      (show (scores oracle n input).length ≤ (ens n input).1.length from
        le_trans hor (le_of_eq (sampleEnsemble_pop_length _ _ _).symm))]
    rfl
  have hlen : (assigned oracle n input).length = Samples := by
    rw [assignEntropies_length hassign]
    exact sampleEnsemble_pop_length _ _ _
  have hpos : (ens n input).2.2.pos =
      n.Rng.pos + Samples * (n.Outputs * n.Inputs) := by
    rw [ens, sampleEnsemble_rng, sizeSum_of_shape hD]
  refine ⟨fun w => rfl, ?_, ?_⟩
  · intro h0
    have hcalc := calculateStatistics_zero_window sq n.Outputs n.Inputs
      (assigned oracle n input)
    rw [← h0] at hcalc
    have hfire : n.Fire sq oracle input =
        (.ok (assigned oracle n input).headI.Outputs,
         { n with
           Rng := (ens n input).2.2
           Distribution := List.replicate n.Outputs (List.replicate n.Inputs
             { Mean := FV.nan, StdDev := FV.nan }) }) := by
      simp only [Net.Fire, hassign, hcalc]
    exact ⟨hfire, hpos⟩
  · intro hbad
    have hcalc : calculateStatistics sq n.window n.Outputs n.Inputs
        (assigned oracle n input) = .error .slicePanic := by
      apply calculateStatistics_panic
      rw [hlen]
      exact hbad.imp id (fun h => h)
    have hfire : n.Fire sq oracle input =
        (.error .slicePanic, { n with Rng := (ens n input).2.2 }) := by
      simp only [Net.Fire, hassign, hcalc]
    exact ⟨hfire, by rw [hfire], hpos⟩

end Testament.SingleBank

/-! Closed evaluation theorems and witnesses.  These run the embedded code
on concrete inputs inside the kernel; the arithmetic of `ℚ` is made
unfoldable for that purpose. -/

attribute [local semireducible] Rat.mul Rat.inv Rat.add Rat.sub

set_option maxRecDepth 2000000

namespace Testament

/-- C1: evaluation of the single-bank `Fire` at a concrete input exhibiting
the `sort.Slice(entropies, ...)` slip.  The oracle scores the last 8 drawn
samples (whose weights are all `-1`) as the fitness-lowest window, yet the
belief update averages the FIRST 8 samples in draw order (weights all
`+1`): the new mean is `+1`, while the statistics of the truly
fitness-sorted population's first-`window` prefix — what the claim says
every `Fire` call computes — has mean `-1`. -/
theorem fire_elite_uses_draw_order_bug :
    ((SingleBank.NewNet stream248 8 1 1).Fire id oracle248 [1]).2.Distribution
      = [[{ Mean := .fin 1, StdDev := .fin 0 }]] ∧
    calculateStatistics id 8 1 1 (sortSystems (SingleBank.assigned oracle248
      (SingleBank.NewNet stream248 8 1 1) [1]))
      = .ok [[{ Mean := .fin (-1), StdDev := .fin 0 }]] := by
  decide

/-- C3: evaluation of the single-bank `Fire` at a concrete input: the
oracle makes the last drawn sample (output `[-1]`) the unique
fitness-best one, yet `Fire` returns `[1]` — the output of the FIRST
sample in draw order — because `systems` was never sorted. -/
theorem fire_returns_first_drawn_bug :
    ((SingleBank.NewNet stream128 8 1 1).Fire id oracleLast [1]).1
      = .ok [1] ∧
    (sortSystems (SingleBank.assigned oracleLast
      (SingleBank.NewNet stream128 8 1 1) [1])).headI.Outputs = [-1] := by
  decide

/-- C5 counterexample: an oracle returning 255 scores (count ≠ P = 256)
does NOT abort the `Fire` call — the call returns a normal output — and
the Q belief IS mutated, contradicting "aborts with an error surfaced to
the caller and the field sets are left un-mutated". -/
theorem fire_short_oracle_mutates :
    ((QKV.NewNet onesStream 8 1 1).Fire id (constOracle 255) [1]).1
      = .ok [1] ∧
    ((QKV.NewNet onesStream 8 1 1).Fire id (constOracle 255) [1]).2.Q
      ≠ (QKV.NewNet onesStream 8 1 1).Q := by
  decide

theorem sampler_sign_quantization_witness :
    Shape 1 1 (NewStatistics 1 1) ∧
    ((Set.Sample (NewStatistics 1 1)
      { stream := zeroStream, pos := 0 }).1.getD 0 []).getD 0 0 = -1 :=
  ⟨by decide,
    (@sampler_sign_quantization (NewStatistics 1 1) zeroStream 0 1 1
      (by decide) 0 0 (by decide) (by decide) 0 1 (by decide)).2.1
      (by simp [zeroStream])⟩

theorem fire_elite_estimator_witness :
    (QKV.scores (constOracle 256) (QKV.NewNet zeroStream 8 1 1) [0]).length
      = Samples ∧
    ((QKV.NewNet zeroStream 8 1 1).Fire id (constOracle 256) [0]).1.isOk
      = true :=
  ⟨rfl, (QKV.fire_elite_estimator id (constOracle 256)
    (QKV.NewNet zeroStream 8 1 1) [0] (by decide) (by decide) (by decide)
    (by decide) (by decide) rfl).1⟩

theorem fire_joint_ranking_witness :
    (QKV.scores (constOracle 256) (QKV.NewNet zeroStream 8 1 1) [0]).length
      = Samples ∧
    (QKV.assignedQ (constOracle 256) (QKV.NewNet zeroStream 8 1 1)
      [0]).map Sample.Entropy =
      QKV.scores (constOracle 256) (QKV.NewNet zeroStream 8 1 1) [0] :=
  ⟨rfl, (QKV.fire_joint_ranking id (constOracle 256)
    (QKV.NewNet zeroStream 8 1 1) [0] (by decide) (by decide) (by decide)
    (by decide) (by decide) rfl).1⟩

theorem fire_deterministic_witness :
    QKV.NewNet zeroStream 8 1 1 = QKV.NewNet zeroStream 8 1 1 ∧
    ((QKV.NewNet zeroStream 8 1 1).Fire id (constOracle 256) [0]).1 =
      ((QKV.NewNet zeroStream 8 1 1).Fire id (constOracle 256) [0]).1 :=
  ⟨rfl, (QKV.fire_deterministic id (constOracle 256) zeroStream 8 1 1 [0]
    (QKV.NewNet zeroStream 8 1 1) (QKV.NewNet zeroStream 8 1 1) rfl rfl).1⟩

theorem belief_invariants_witness :
    (∀ x : ℚ, 0 ≤ x → 0 ≤ id x) ∧
    (∀ u, u < 1 → ∀ d, d < 1 →
      getRC (QKV.NewNet zeroStream 8 1 1).Q u d =
        { Mean := .fin 0, StdDev := .fin 1 } ∧
      getRC (QKV.NewNet zeroStream 8 1 1).K u d =
        { Mean := .fin 0, StdDev := .fin 1 } ∧
      getRC (QKV.NewNet zeroStream 8 1 1).V u d =
        { Mean := .fin 0, StdDev := .fin 1 }) :=
  ⟨fun _ h => h, (QKV.belief_invariants id (constOracle 256)
    (QKV.NewNet zeroStream 8 1 1) [0] (by decide) (by decide) (by decide)
    (by decide) (by decide) rfl (fun _ h => h) zeroStream 8 1 1).1⟩

theorem fire_no_oracle_validation_witness :
    Samples <
      (QKV.scores (constOracle 257) (QKV.NewNet zeroStream 8 1 1) [0]).length ∧
    ((QKV.NewNet zeroStream 8 1 1).Fire id (constOracle 255) [0]).1.isOk
      = true :=
  ⟨by decide, (QKV.fire_no_oracle_validation id (constOracle 255)
    (constOracle 257) (QKV.NewNet zeroStream 8 1 1) [0] (by decide)
    (by decide) (by decide) (by decide) (by decide) (by decide)
    (by decide)).1⟩

theorem setWindow_unvalidated_fire_fails_late_witness :
    Shape 1 1 (SingleBank.NewNet zeroStream 0 1 1).Distribution ∧
    ((SingleBank.NewNet zeroStream 0 1 1).SetWindow 5).window = 5 :=
  ⟨by decide, (SingleBank.setWindow_unvalidated_fire_fails_late id
    (constOracle 256) (SingleBank.NewNet zeroStream 0 1 1) [0] (by decide)
    (by decide)).1 5⟩

end Testament
